import Mathlib

/-!
Verification of the VaultPrivacy repository (domain extraction and
normalization, rating lookup with cache, report statistics).

Python strings are modelled as lists of characters (`Str`); the string
operations used by the code (`strip`, `lower`, substring tests, `split('.')`,
`'.'.join`) are modelled for the ASCII range, which covers every string
constant appearing in the source.  `urllib.parse`'s hostname extraction is
modelled after CPython 3.11 `urlsplit` / `SplitResult.hostname`; the NFKC
check `_checknetloc`, a no-op for ASCII netlocs, is omitted.  Fallible code
returns `Except PyErr`.
-/

/-- A Python string, modelled as its list of characters. -/
abbrev Str := List Char

/-- The Python exceptions relevant to this code base. -/
inductive PyErr where
  | valueError
  | typeError
  | attributeError
  | keyError
  | indexError
  | parseError
  | zeroDivisionError
deriving DecidableEq, Repr

deriving instance DecidableEq for Except

/-- ASCII model of `str.lower` on one character. -/
def lowerChar (c : Char) : Char :=
  if 'A' ≤ c ∧ c ≤ 'Z' then
    match c with
    | 'A' => 'a' | 'B' => 'b' | 'C' => 'c' | 'D' => 'd' | 'E' => 'e'
    | 'F' => 'f' | 'G' => 'g' | 'H' => 'h' | 'I' => 'i' | 'J' => 'j'
    | 'K' => 'k' | 'L' => 'l' | 'M' => 'm' | 'N' => 'n' | 'O' => 'o'
    | 'P' => 'p' | 'Q' => 'q' | 'R' => 'r' | 'S' => 's' | 'T' => 't'
    | 'U' => 'u' | 'V' => 'v' | 'W' => 'w' | 'X' => 'x' | 'Y' => 'y'
    | 'Z' => 'z' | _ => c
  else c

/-- Model of `str.lower` (ASCII range). -/
def pyLower (s : Str) : Str := s.map lowerChar

/-- The characters removed by `str.strip()` (ASCII whitespace). -/
def isPySpace (c : Char) : Bool :=
  c = ' ' ∨ c = '\t' ∨ c = '\n' ∨ c = '\r' ∨ c = '\x0b' ∨ c = '\x0c'

/-- Model of `str.strip()`: drop leading and trailing whitespace. -/
def pyStrip (s : Str) : Str :=
  ((s.dropWhile isPySpace).reverse.dropWhile isPySpace).reverse

/-- Model of Python's substring test `pat in s`. -/
def strHas : Str → Str → Bool
  | [], pat => pat.isEmpty
  | s@(_ :: rest), pat => pat.isPrefixOf s || strHas rest pat

/-- Model of Python `host.split(".")`: split at every dot, keeping empties
(the recursive result is never `[]`, so `headD`/`tail` just extend its first
piece). -/
def splitDot : Str → List Str
  | [] => [[]]
  | c :: rest =>
    let ps := splitDot rest
    if c = '.' then [] :: ps
    else (c :: ps.headD []) :: ps.tail

/-- Model of Python `".".join(parts)`. -/
def joinDot : List Str → Str
  | [] => []
  | [p] => p
  | p :: rest => p ++ '.' :: joinDot rest

/-- Model of the Python slice `parts[-n:]`. -/
def lastN (n : Nat) (l : List Str) : List Str := l.drop (l.length - n)

/-- `MULTIPART_TLDS` from `vaultprivacy/parser.py`. -/
def MULTIPART_TLDS : List Str :=
  [("co.uk").data, ("org.uk").data, ("ac.uk").data, ("gov.uk").data,
   ("com.au").data, ("co.jp").data, ("com.br").data]

/-- CPython `urlsplit` removes tab, CR and LF anywhere in the url. -/
def stripUnsafe (url : Str) : Str :=
  url.filter (fun c => ¬(c = '\t' ∨ c = '\r' ∨ c = '\n'))

/-- The characters CPython allows inside a URL scheme. -/
def schemeChar (c : Char) : Bool :=
  ('a' ≤ c ∧ c ≤ 'z') || ('A' ≤ c ∧ c ≤ 'Z') || ('0' ≤ c ∧ c ≤ '9') ||
  c = '+' || c = '-' || c = '.'

/-- An ASCII letter (CPython's `url[0].isascii() and url[0].isalpha()`). -/
def isAsciiLetter (c : Char) : Bool :=
  ('a' ≤ c ∧ c ≤ 'z') || ('A' ≤ c ∧ c ≤ 'Z')

/-- Whether the first character exists and is an ASCII letter. -/
def headIsLetter : Str → Bool
  | [] => false
  | c :: _ => isAsciiLetter c

/-- CPython `urlsplit` scheme handling: if the text before the first `:` is a
valid scheme, drop it (the scheme itself is unused by `hostname`). -/
def splitSchemeUrl (url : Str) : Str :=
  match url.findIdx? (fun c => c = ':') with
  | none => url
  | some i =>
    if 0 < i ∧ headIsLetter url ∧ (url.take i).all schemeChar then
      url.drop (i + 1)
    else url

/-- CPython `_splitnetloc`: if the url starts with `//`, the netloc is the text
up to the first `/`, `?` or `#`. -/
def netlocOf (url : Str) : Option Str :=
  match url with
  | '/' :: '/' :: rest =>
    some (rest.takeWhile (fun c => ¬(c = '/' ∨ c = '?' ∨ c = '#')))
  | _ => none

/-- CPython `netloc.rpartition('@')[2]`: the part after the last `@`. -/
def afterLastAt (l : Str) : Str :=
  (l.reverse.takeWhile (fun c => ¬ c = '@')).reverse

/-- CPython `_hostinfo` host part: inside the first `[` `]` pair if a bracket
is present, otherwise up to the first `:`. -/
def hostportOf (hostinfo : Str) : Str :=
  if '[' ∈ hostinfo then
    ((hostinfo.dropWhile (fun c => ¬ c = '[')).tail).takeWhile (fun c => ¬ c = ']')
  else hostinfo.takeWhile (fun c => ¬ c = ':')

/-- CPython `SplitResult.hostname` lowercasing: the part before a `%` (IPv6
zone separator) is lowercased, the rest kept as is. -/
def lowerZone (h : Str) : Str :=
  pyLower (h.takeWhile (fun c => ¬ c = '%')) ++ h.dropWhile (fun c => ¬ c = '%')

/-- Model of `urlparse(url).hostname` (CPython 3.11): scheme split, netloc
extraction, the `Invalid IPv6 URL` ValueError on unbalanced brackets, and the
hostname/port split.  Returns `none` where Python returns `None`. -/
def urlparse_hostname (rawUrl : Str) : Except PyErr (Option Str) :=
  let url := splitSchemeUrl (stripUnsafe rawUrl)
  match netlocOf url with
  | none => .ok none
  | some netloc =>
    if ('[' ∈ netloc ∧ ¬ ']' ∈ netloc) ∨ (']' ∈ netloc ∧ ¬ '[' ∈ netloc) then
      .error .valueError
    else
      let hp := hostportOf (afterLastAt netloc)
      if hp = [] then .ok none else .ok (some (lowerZone hp))

/-- `re.sub(r"^(www\.|m\.)", "", host)`: strip one leading `www.` or `m.`. -/
def stripWwwM (host : Str) : Str :=
  if (("www.").data).isPrefixOf host then host.drop 4
  else if (("m.").data).isPrefixOf host then host.drop 2
  else host

/-- The suffix-table logic of `normalize_domain` after the host is obtained
(`parts = host.split(".")` onwards). -/
def domainFromHost (host : Str) : Str :=
  let parts := splitDot host
  if parts.length < 2 then host
  else
    let last_two := joinDot (lastN 2 parts)
    let last_three := if 3 ≤ parts.length then joinDot (lastN 3 parts) else []
    if last_two ∈ MULTIPART_TLDS ∧ 3 ≤ parts.length then joinDot (lastN 3 parts)
    else if last_three ∈ MULTIPART_TLDS ∧ 4 ≤ parts.length then joinDot (lastN 4 parts)
    else last_two

/-- `normalize_domain` from `vaultprivacy/parser.py`.  `ValueError` raised by
`urlparse` propagates (the function has no handler). -/
def normalize_domain (raw : Str) : Except PyErr Str :=
  if raw = [] then .ok []
  else
    let s := pyLower (pyStrip raw)
    if ('@' ∈ s) ∧ ¬ strHas s (("://").data) then .ok []
    else
      let s2 := if strHas s (("://").data) then s else ("https://").data ++ s
      match urlparse_hostname s2 with
      | .error e => .error e
      | .ok none => .ok []
      | .ok (some host) => .ok (domainFromHost (stripWwwM host))

example : normalize_domain (("https://www.example.com/path").data) = .ok (("example.com").data) := by decide
example : normalize_domain (("m.test.org").data) = .ok (("test.org").data) := by decide
example : normalize_domain (("sub.example.co.uk").data) = .ok (("example.co.uk").data) := by decide
example : normalize_domain (("user@example.com").data) = .ok [] := by decide
example : normalize_domain [] = .ok [] := by decide
example : normalize_domain (("[").data) = .error .valueError := by decide
example : normalize_domain (("a.www.b").data) = .ok (("www.b").data) := by decide
example : normalize_domain (("www.b").data) = .ok (("b").data) := by decide
example : normalize_domain (("www.co.uk").data) = .ok (("co.uk").data) := by decide
example : normalize_domain (("www.com").data) = .ok (("com").data) := by decide
example : normalize_domain (("[::1]").data) = .ok (("::1").data) := by decide
example : normalize_domain (("::1").data) = .ok [] := by decide
example : normalize_domain (("example.com:8080").data) = .ok (("example.com").data) := by decide

/-!
A model of the Python/JSON values the vault parser and the API client
manipulate, together with the Python operations the source uses on them
(truthiness, `.get`, `in`, subscripting, iteration, `int()`).
-/


/-- Dictionary keys used by the parser and the API client (named constants
so proofs can treat them opaquely). -/
def kItems : Str := ("items").data
def kLogin : Str := ("login").data
def kUris : Str := ("uris").data
def kUri : Str := ("uri").data
def kParameters : Str := ("parameters").data
def kServices : Str := ("services").data
def kUrls : Str := ("urls").data
def kName : Str := ("name").data
def kRating : Str := ("rating").data
def kLetter : Str := ("letter").data
def kId : Str := ("id").data
def kGrade : Str := ("grade").data
def kServiceId : Str := ("service_id").data
def kUnknown : Str := ("Unknown").data

/-- A Python value as produced by `json.loads` (dict keys are strings). -/
inductive PyVal where
  | none
  | bool (b : Bool)
  | int (n : Int)
  | str (s : Str)
  | list (xs : List PyVal)
  | dict (entries : List (Str × PyVal))

/-- Python truthiness. -/
def truthy : PyVal → Bool
  | .none => false
  | .bool b => b
  | .int n => n ≠ 0
  | .str s => s ≠ []
  | .list xs => ¬ xs.isEmpty
  | .dict d => ¬ d.isEmpty

/-- First value bound to a key in a dict (dict keys are unique in Python). -/
def assocFind (d : List (Str × PyVal)) (k : Str) : Option PyVal :=
  match d with
  | [] => Option.none
  | (k', v) :: rest => if k' = k then some v else assocFind rest k

/-- `d[k] = v` on a Python dict: replace the binding or append a new one. -/
def assocSet (d : List (Str × PyVal)) (k : Str) (v : PyVal) : List (Str × PyVal) :=
  match d with
  | [] => [(k, v)]
  | (k', v') :: rest => if k' = k then (k, v) :: rest else (k', v') :: assocSet rest k v

/-- `obj.get(key, default)`: dict lookup; on a non-dict, `AttributeError`. -/
def pyGetE (v : PyVal) (key : Str) (dflt : PyVal) : Except PyErr PyVal :=
  match v with
  | .dict d => .ok ((assocFind d key).getD dflt)
  | _ => .error .attributeError

/-- Python `==` where one side is a string. -/
def pyEqStr (v : PyVal) (s : Str) : Bool :=
  match v with
  | .str t => t = s
  | _ => false

/-- Python `s in container` for a string needle: substring test on strings,
`==`-membership on lists, key membership on dicts, `TypeError` otherwise. -/
def pyInStr (s : Str) (container : PyVal) : Except PyErr Bool :=
  match container with
  | .str t => .ok (strHas t s)
  | .list xs => .ok (xs.any (fun v => pyEqStr v s))
  | .dict d => .ok (d.any (fun kv => kv.1 = s))
  | _ => .error .typeError

/-- Python `container[key]` for a string key. -/
def pySubscriptStr (v : PyVal) (key : Str) : Except PyErr PyVal :=
  match v with
  | .dict d =>
    match assocFind d key with
    | some x => .ok x
    | Option.none => .error .keyError
  | _ => .error .typeError

/-- Python `container[0]`. -/
def pySubscriptZero (v : PyVal) : Except PyErr PyVal :=
  match v with
  | .list (x :: _) => .ok x
  | .list [] => .error .indexError
  | .str (c :: _) => .ok (.str [c])
  | .str [] => .error .indexError
  | .dict _ => .error .keyError
  | _ => .error .typeError

/-- Python `for x in v`: lists yield elements, strings one-character strings,
dicts their keys; other values raise `TypeError`. -/
def pyIterE (v : PyVal) : Except PyErr (List PyVal) :=
  match v with
  | .list xs => .ok xs
  | .str s => .ok (s.map (fun c => .str [c]))
  | .dict d => .ok (d.map (fun kv => .str kv.1))
  | _ => .error .typeError

/-- Whether a string parses as a Python `int` literal (optional sign, digits). -/
def intLitOk (s : Str) : Bool :=
  let t := pyStrip s
  let digits := match t with
    | '+' :: rest => rest
    | '-' :: rest => rest
    | _ => t
  digits ≠ [] ∧ digits.all (fun c => '0' ≤ c ∧ c ≤ '9')

/-- Numeric value of a digit string with optional sign (helper for `pyInt`). -/
def intLitVal (s : Str) : Int :=
  let t := pyStrip s
  match t with
  | '-' :: rest => - (rest.foldl (fun a c => a * 10 + (c.toNat - '0'.toNat)) 0 : Nat)
  | '+' :: rest => (rest.foldl (fun a c => a * 10 + (c.toNat - '0'.toNat)) 0 : Nat)
  | _ => (t.foldl (fun a c => a * 10 + (c.toNat - '0'.toNat)) 0 : Nat)

/-- Python `int(v)`: ints unchanged, bools 0/1, numeric strings parsed
(`ValueError` otherwise), everything else `TypeError`. -/
def pyInt (v : PyVal) : Except PyErr Int :=
  match v with
  | .int n => .ok n
  | .bool b => .ok (if b then 1 else 0)
  | .str s => if intLitOk s then .ok (intLitVal s) else .error .valueError
  | _ => .error .typeError

/-!  The vault parser `extract_domains` from `vaultprivacy/parser.py`. -/

/-- `normalize_domain` as called on a value taken from JSON: `if not raw`
short-circuits any falsy value to `""`; a truthy non-string raises
`AttributeError` at `raw.strip()`. -/
def normalize_domain_py (raw : PyVal) : Except PyErr Str :=
  if ¬ truthy raw then .ok []
  else match raw with
    | .str s => normalize_domain s
    | _ => .error .attributeError

/-- `(u or {}).get("uri", "")` from the inner loop of `extract_domains`. -/
def uriOfEntry (u : PyVal) : Except PyErr PyVal :=
  pyGetE (if truthy u then u else .dict []) kUri (.str [])

/-- The inner loop of `extract_domains` over `login.uris`, carrying the `seen`
set and the `ordered` accumulator. -/
def procUris (us : List PyVal) (seen acc : List Str) :
    Except PyErr (List Str × List Str) :=
  match us with
  | [] => .ok (seen, acc)
  | u :: rest =>
    match uriOfEntry u with
    | .error e => .error e
    | .ok raw =>
      match normalize_domain_py raw with
      | .error e => .error e
      | .ok dom =>
        if dom ≠ [] ∧ ¬ dom ∈ seen then procUris rest (dom :: seen) (acc ++ [dom])
        else procUris rest seen acc

/-- The outer loop of `extract_domains` over `items`. -/
def procItems (items : List PyVal) (seen acc : List Str) :
    Except PyErr (List Str × List Str) :=
  match items with
  | [] => .ok (seen, acc)
  | it :: rest =>
    match pyGetE it kLogin (.dict []) with
    | .error e => .error e
    | .ok login0 =>
      let login := if truthy login0 then login0 else .dict []
      match pyGetE login kUris .none with
      | .error e => .error e
      | .ok uris0 =>
        let uris := if truthy uris0 then uris0 else .list []
        match pyIterE uris with
        | .error e => .error e
        | .ok us =>
          match procUris us seen acc with
          | .error e => .error e
          | .ok (seen', acc') => procItems rest seen' acc'

/-- `extract_domains` from `vaultprivacy/parser.py`.  The argument is the
result of reading and `json.loads`-parsing the export file: a missing or
malformed file is a parse error, which propagates (no handler). -/
def extract_domains (parsed : Except Unit PyVal) : Except PyErr (List Str) :=
  match parsed with
  | .error _ => .error .parseError
  | .ok data =>
    match pyGetE data kItems (.list []) with
    | .error e => .error e
    | .ok itemsV =>
      match pyIterE itemsV with
      | .error e => .error e
      | .ok items =>
        match procItems items [] [] with
        | .error e => .error e
        | .ok (_, acc) => .ok acc

/-!  The rating client from `vaultprivacy/api_client.py`. -/

/-- `any(domain in url for url in urls)`: lazy, stops at the first hit. -/
def anyUrlHasDomain (domain : Str) : List PyVal → Except PyErr Bool
  | [] => .ok false
  | url :: rest =>
    match pyInStr domain url with
    | .error e => .error e
    | .ok true => .ok true
    | .ok false => anyUrlHasDomain domain rest

/-- The exact-match loop of `_best_match`: the first dict service one of whose
`urls` contains the domain as a substring; non-dict entries are skipped. -/
def bestMatchLoop (domain : Str) : List PyVal → Except PyErr (Option PyVal)
  | [] => .ok Option.none
  | service :: rest =>
    match service with
    | .dict sd =>
      match pyIterE ((assocFind sd kUrls).getD (.list [])) with
      | .error e => .error e
      | .ok urls =>
        match anyUrlHasDomain domain urls with
        | .error e => .error e
        | .ok true => .ok (some service)
        | .ok false => bestMatchLoop domain rest
    | _ => bestMatchLoop domain rest

/-- `_best_match` from `vaultprivacy/api_client.py`. -/
def bestMatch (search_json : PyVal) (domain : Str) : Except PyErr (Option PyVal) :=
  if ¬ truthy search_json then .ok Option.none
  else
    match pyInStr kParameters search_json with
    | .error e => .error e
    | .ok hasParams =>
      if ¬ hasParams then .ok Option.none
      else
        match pySubscriptStr search_json kParameters with
        | .error e => .error e
        | .ok params =>
          match pyGetE params kServices (.list []) with
          | .error e => .error e
          | .ok services =>
            if ¬ truthy services then .ok Option.none
            else
              match pyIterE services with
              | .error e => .error e
              | .ok ss =>
                match bestMatchLoop domain ss with
                | .error e => .error e
                | .ok (some s) => .ok (some s)
                | .ok Option.none =>
                  if truthy services then
                    match pySubscriptZero services with
                    | .error e => .error e
                    | .ok s => .ok (some s)
                  else .ok Option.none

/-- The line `if service_id: service_id = int(service_id)` of
`lookup_tosdr`. -/
def convertId (sid0 : PyVal) : Except PyErr PyVal :=
  if truthy sid0 then
    match pyInt sid0 with
    | .error e => .error e
    | .ok n => .ok (.int n)
  else .ok sid0

/-- Field extraction from a selected service in `lookup_tosdr`: `name`,
`rating.letter` coerced into {A..E, Unknown}, and `int(service_id)` when the
raw id is truthy. -/
def extractService (service : PyVal) (domain : Str) : Except PyErr PyVal :=
  match pyGetE service kName (.str domain) with
  | .error e => .error e
  | .ok name =>
    match pyGetE service kRating (.dict []) with
    | .error e => .error e
    | .ok rating =>
      let grade : PyVal :=
        match rating with
        | .dict rd =>
          match assocFind rd kLetter with
          | some g => g
          | Option.none => .str kUnknown
        | _ => .str kUnknown
      match pyGetE service kId .none with
      | .error e => .error e
      | .ok sid0 =>
        match convertId sid0 with
        | .error e => .error e
        | .ok sid =>
          let gradeOut : PyVal :=
            if pyEqStr grade (("A").data) || pyEqStr grade (("B").data) ||
               pyEqStr grade (("C").data) || pyEqStr grade (("D").data) ||
               pyEqStr grade (("E").data) then grade
            else .str kUnknown
          .ok (.dict [(kGrade, gradeOut),
                      (kServiceId, sid),
                      (kName, name)])

/-- The default record `{"grade": "Unknown", "service_id": None, "name": domain}`. -/
def defaultRecord (domain : Str) : PyVal :=
  .dict [(kGrade, .str kUnknown),
         (kServiceId, .none),
         (kName, .str domain)]

/-- Outcome of the single `requests.get` call: either a `RequestException`
(network error, timeout, ...) or a response with its `ok` flag and parsed
JSON body. -/
inductive NetOutcome where
  | exn
  | resp (ok : Bool) (body : PyVal)

/-- Observable effects of one `lookup_tosdr` call. -/
structure LookupResult where
  record : PyVal
  cache : List (Str × PyVal)
  saved : Bool
  slept : Bool
  netCalls : Nat

/-- `lookup_tosdr` from `vaultprivacy/api_client.py`, over the loaded cache
and the outcome of the (single possible) network call.  Only
`requests.RequestException` is caught; `ValueError`/`TypeError` raised while
digesting the response body propagate, skipping cache write and sleep. -/
def lookup_tosdr (cache : List (Str × PyVal)) (domain : Str) (net : NetOutcome) :
    Except PyErr LookupResult :=
  match assocFind cache domain with
  | some v => .ok ⟨v, cache, false, false, 0⟩
  | Option.none =>
    let attempt : Except PyErr PyVal :=
      match net with
      | .exn => .ok (defaultRecord domain)
      | .resp ok body =>
        if ¬ ok then .ok (defaultRecord domain)
        else
          match bestMatch body domain with
          | .error e => .error e
          | .ok Option.none => .ok (defaultRecord domain)
          | .ok (some service) => extractService service domain
    match attempt with
    | .error e => .error e
    | .ok out => .ok ⟨out, assocSet cache domain out, true, true, 1⟩

/-!  `vaultprivacy/domain_normalizer.py` and step 2 of `main`. -/

/-- Modelled from the spec: the public-suffix list used by the third-party
`tldextract` dependency (not part of this repository).  Per the spec,
`tldextract` "splits host into subdomain, domain, suffix using the Public
Suffix List", of which the parser's hardcoded table is a "deliberately
incomplete" subset; this fixed representative fragment contains the plain
TLDs and the multi-part suffixes the spec names. -/
def publicSuffixes : List Str :=
  [("com").data, ("org").data, ("net").data, ("uk").data, ("au").data,
   ("jp").data, ("br").data, ("co.uk").data, ("org.uk").data, ("ac.uk").data,
   ("gov.uk").data, ("com.au").data, ("co.jp").data, ("com.br").data]

/-- Modelled from the spec: `tldextract`'s lenient host extraction (drop a
scheme, path/query/fragment, userinfo and port from the input string). -/
def lenientHost (url : Str) : Str :=
  let afterScheme :=
    if strHas url (("://").data) then
      ((url.dropWhile (fun c => ¬ c = ':')).drop 3)
    else url
  let noPath := afterScheme.takeWhile (fun c => ¬(c = '/' ∨ c = '?' ∨ c = '#'))
  (afterLastAt noPath).takeWhile (fun c => ¬ c = ':')

/-- Longest suffix of `labels` (of length `k ≤ bound`) that joins to a known
public suffix; 0 when none matches. -/
def bestSuffixLen (labels : List Str) : Nat → Nat
  | 0 => 0
  | k + 1 =>
    if k + 1 ≤ labels.length ∧ joinDot (lastN (k + 1) labels) ∈ publicSuffixes then k + 1
    else bestSuffixLen labels k

/-- Modelled from the spec: `tldextract.extract`, returning
`(subdomain, domain, suffix)` label groups over the lowercased host. -/
def tldextract_extract (url : Str) : Str × Str × Str :=
  let host := pyLower (lenientHost url)
  let labels := splitDot host
  let k := bestSuffixLen labels labels.length
  if k = 0 then
    (joinDot (labels.take (labels.length - 1)), joinDot (lastN 1 labels), [])
  else
    let rest := labels.take (labels.length - k)
    (joinDot (rest.take (rest.length - 1)), joinDot (lastN 1 rest), joinDot (lastN k labels))

/-- `normalize` from `vaultprivacy/domain_normalizer.py` (over the
spec-modelled `tldextract_extract`). -/
def dn_normalize (url : Str) : Str :=
  if url = [] then []
  else
    let e := tldextract_extract url
    if e.2.1 = [] ∨ e.2.2 = [] then pyLower url
    else pyLower (e.2.1 ++ '.' :: e.2.2)

/-- Step 2 of `main` (`vaultprivacy/main.py`): re-normalize each extracted
domain with `domain_normalizer.normalize`, keeping nonempty first-seen-unique
results, via membership tests on the output list. -/
def mainStep2Loop (acc : List Str) : List Str → List Str
  | [] => acc
  | d :: rest =>
    let n := dn_normalize d
    if n ≠ [] ∧ ¬ n ∈ acc then mainStep2Loop (acc ++ [n]) rest
    else mainStep2Loop acc rest

/-- The normalized-domain list `main` computes from the parser's output. -/
def main_normalized (domains : List Str) : List Str := mainStep2Loop [] domains

example : dn_normalize (("www.com").data) = ("www.com").data := by decide
example : dn_normalize (("https://www.example.com/path").data) = ("example.com").data := by decide
example : dn_normalize (("sub.example.co.uk").data) = ("example.co.uk").data := by decide
example : dn_normalize (("localhost").data) = ("localhost").data := by decide
example : dn_normalize (("com").data) = ("com").data := by decide

/-!  `generate_markdown_report` from `vaultprivacy/reporting.py`. -/

/-- A rating grade as the pipeline produces it (`RatingRecord.grade`). -/
inductive Grade where
  | A | B | C | D | E | unknown
deriving DecidableEq, Repr

/-- One entry of the in-memory result list handed to the report generators:
a `RatingRecord` with the `domain` key added by `main`. -/
structure ResultRow where
  name : Str
  domain : Str
  grade : Grade
  service_id : Option Int
deriving DecidableEq, Repr

/-- Position of a grade in `['A', 'B', 'C', 'D', 'E', 'Unknown']`. -/
def gradeRank : Grade → Nat
  | .A => 0 | .B => 1 | .C => 2 | .D => 3 | .E => 4 | .unknown => 5

/-- Python true division `a / b`, raising `ZeroDivisionError` on `b = 0`. -/
def pyDiv (a b : ℚ) : Except PyErr ℚ :=
  if b = 0 then .error .zeroDivisionError else .ok (a / b)

/-- Insertion step for the sort model. -/
def insertLe {α : Type} (le : α → α → Bool) (a : α) : List α → List α
  | [] => [a]
  | b :: rest => if le a b then a :: b :: rest else b :: insertLe le a rest

/-- `sorted(xs, key=...)` modelled as an insertion sort (total; the exact
order is not used by any claim). -/
def sortLe {α : Type} (le : α → α → Bool) (l : List α) : List α :=
  l.foldr (insertLe le) []

/-- Lexicographic order on strings (Python `str` comparison, ASCII). -/
def strLe : Str → Str → Bool
  | [], _ => true
  | _ :: _, [] => false
  | a :: as, b :: bs => if a < b then true else if b < a then false else strLe as bs

/-- `grade_counts` built in insertion order, as a Python dict is. -/
def gradeCounts (rows : List ResultRow) : List (Grade × Nat) :=
  rows.foldl
    (fun acc r =>
      if acc.any (fun gc => gc.1 = r.grade) then
        acc.map (fun gc => if gc.1 = r.grade then (gc.1, gc.2 + 1) else gc)
      else acc ++ [(r.grade, 1)])
    []

/-- The numbers and tables `generate_markdown_report` computes, in source
order (the surrounding literal prose is omitted): totals, the executive
summary percentages — `found_services/total_services*100`, unguarded —, the
grade-distribution rows — guarded by `if total_services > 0` —, the risky
subset sorted E-before-D, and the full table sorted by grade rank then name. -/
structure ReportStats where
  total : Nat
  found : Nat
  unknownCount : Nat
  ratedPct : ℚ
  unknownPct : ℚ
  distribution : List (Grade × Nat × ℚ)
  risky : List ResultRow
  table : List ResultRow

/-- The statistics pipeline of `generate_markdown_report`. -/
def generate_markdown_report (rows : List ResultRow) : Except PyErr ReportStats :=
  let total := rows.length
  let found := (rows.filter (fun r => r.grade ≠ Grade.unknown)).length
  let unknownCount := total - found
  let counts := gradeCounts rows
  let sorted_grades := sortLe (fun a b => gradeRank a.1 ≤ gradeRank b.1) counts
  match pyDiv (found : ℚ) (total : ℚ) with
  | .error e => .error e
  | .ok ratedFrac =>
    match pyDiv (unknownCount : ℚ) (total : ℚ) with
    | .error e => .error e
    | .ok unknownFrac =>
      let ratedPct := ratedFrac * 100
      let unknownPct := unknownFrac * 100
      let distribution := sorted_grades.map (fun gc =>
        (gc.1, gc.2, if 0 < total then ((gc.2 : ℚ) / (total : ℚ)) * 100 else 0))
      let risky0 := rows.filter (fun r => r.grade = Grade.E ∨ r.grade = Grade.D)
      let risky := sortLe
        (fun a b => (if a.grade = Grade.E then 0 else 1) ≤ (if b.grade = Grade.E then 0 else (1 : Nat)))
        risky0
      let table := sortLe
        (fun a b => gradeRank a.grade < gradeRank b.grade ∨
          (gradeRank a.grade = gradeRank b.grade ∧ strLe a.name b.name))
        rows
      .ok ⟨total, found, unknownCount, ratedPct, unknownPct, distribution, risky, table⟩

example : generate_markdown_report [] = .error .zeroDivisionError := by rfl

/-!  Spec-side list functions used to state the amended claims. -/

/-- First-seen-order deduplication that also drops empty strings, mirroring
the `if dom and dom not in seen` filters of the two pipeline loops. -/
def dedupNonempty (seen : List Str) : List Str → List Str
  | [] => []
  | d :: rest =>
    if d ≠ [] ∧ ¬ d ∈ seen then d :: dedupNonempty (d :: seen) rest
    else dedupNonempty seen rest

/-- The seen-set after feeding a list through `dedupNonempty`. -/
def seenAfter (seen : List Str) : List Str → List Str
  | [] => seen
  | d :: rest =>
    if d ≠ [] ∧ ¬ d ∈ seen then seenAfter (d :: seen) rest
    else seenAfter seen rest

/-- First-seen-order deduplication by the raw string itself (what claim C3
predicts the parser uses). -/
def dedupByRaw (seen : List Str) : List Str → List Str
  | [] => []
  | d :: rest =>
    if ¬ d ∈ seen then d :: dedupByRaw (d :: seen) rest
    else dedupByRaw seen rest

/-- The value `(u or {}).get("uri", "")` would produce, `none` when Python
would raise. -/
def rawOfEntryPure (u : PyVal) : Option PyVal :=
  if ¬ truthy u then some (.str [])
  else match u with
    | .dict d => some ((assocFind d kUri).getD (.str []))
    | _ => Option.none

/-- The raw URI values of a list of `uris` entries, `none` when one of them
would make `extract_domains` raise. -/
def rawsOf : List PyVal → Option (List PyVal)
  | [] => some []
  | u :: rest =>
    match rawOfEntryPure u, rawsOf rest with
    | some r, some rs => some (r :: rs)
    | _, _ => Option.none

/-- The raw URI values of one vault item, `none` when the item shape would
make `extract_domains` raise. -/
def itemRaws (it : PyVal) : Option (List PyVal) :=
  match it with
  | .dict d =>
    let login0 := (assocFind d kLogin).getD (.dict [])
    let login := if truthy login0 then login0 else .dict []
    match login with
    | .dict ld =>
      let uris0 := (assocFind ld kUris).getD .none
      let uris := if truthy uris0 then uris0 else .list []
      match uris with
      | .list us => rawsOf us
      | _ => Option.none
    | _ => Option.none
  | _ => Option.none

/-- The raw URI values of each item in a list of vault items. -/
def itemsRaws : List PyVal → Option (List (List PyVal))
  | [] => some []
  | it :: rest =>
    match itemRaws it, itemsRaws rest with
    | some rs, some rss => some (rs :: rss)
    | _, _ => Option.none

/-- The per-item raw URI values of a vault export, `none` when the shape is
one on which `extract_domains` raises. -/
def vaultRaws (v : PyVal) : Option (List (List PyVal)) :=
  match v with
  | .dict d =>
    match (assocFind d kItems).getD (.list []) with
    | .list items => itemsRaws items
    | _ => Option.none
  | _ => Option.none

/-- The normalized domain of a raw URI value, `none` on an exception. -/
def okNorm (r : PyVal) : Option Str :=
  match normalize_domain_py r with
  | .ok d => some d
  | .error _ => Option.none

/-- The (exception-free) normalizations of a list of raw URI values. -/
def normsOfRaws (rs : List PyVal) : List Str := rs.filterMap okNorm

/-!  Helper lemmas: characters and basic string operations. -/

theorem lowerChar_fix_or_lower (c : Char) :
    lowerChar c = c ∨ ('a' ≤ lowerChar c ∧ lowerChar c ≤ 'z') := by
  unfold lowerChar
  split
  · split <;> simp_all
  · exact Or.inl rfl

theorem lowerChar_eq_of_not_lower {c d : Char} (h : lowerChar c = d)
    (hd : ¬ ('a' ≤ d ∧ d ≤ 'z')) : c = d := by
  rcases lowerChar_fix_or_lower c with h' | h'
  · rw [← h', h]
  · rw [h] at h'; exact absurd h' hd

theorem map_eq_self_of_fix {f : Char → Char} {l : Str} (h : ∀ c ∈ l, f c = c) :
    l.map f = l := by
  induction l with
  | nil => rfl
  | cons a t ih =>
    simp only [List.map_cons, h a (by simp)]
    rw [ih (fun c hc => h c (by simp [hc]))]

theorem mem_dropWhile_of_not {p : Char → Bool} {l : Str} {c : Char}
    (hc : c ∈ l) (hp : ¬ p c) : c ∈ l.dropWhile p := by
  induction l with
  | nil => cases hc
  | cons a t ih =>
    by_cases ha : p a
    · rw [List.dropWhile_cons_of_pos ha]
      rcases List.mem_cons.mp hc with rfl | hc'
      · exact absurd ha hp
      · exact ih hc'
    · rw [List.dropWhile_cons_of_neg ha]; exact hc

theorem mem_pyStrip_of_not_space {s : Str} {c : Char} (hc : c ∈ s)
    (hsp : ¬ isPySpace c) : c ∈ pyStrip s := by
  unfold pyStrip
  rw [List.mem_reverse]
  apply mem_dropWhile_of_not _ hsp
  rw [List.mem_reverse]
  exact mem_dropWhile_of_not hc hsp

theorem pyStrip_within (s : Str) : pyStrip s <:+: s := by
  unfold pyStrip
  have h1 : s.dropWhile isPySpace <:+ s := List.dropWhile_suffix isPySpace
  have h2 : (s.dropWhile isPySpace).reverse.dropWhile isPySpace <:+
      (s.dropWhile isPySpace).reverse := List.dropWhile_suffix isPySpace
  have h3 : ((s.dropWhile isPySpace).reverse.dropWhile isPySpace).reverse <+:
      s.dropWhile isPySpace := by
    have := List.reverse_prefix.mpr h2
    simpa using this
  exact h3.isInfix.trans h1.isInfix

theorem strHas_iff {s pat : Str} : strHas s pat = true ↔ pat <:+: s := by
  induction s with
  | nil =>
    simp only [strHas, List.isEmpty_iff, List.infix_nil]
  | cons a t ih =>
    simp only [strHas, Bool.or_eq_true, List.infix_cons_iff, ih]
    constructor
    · rintro (h | h)
      · exact Or.inl (List.isPrefixOf_iff_prefix.mp h)
      · exact Or.inr h
    · rintro (h | h)
      · exact Or.inl (List.isPrefixOf_iff_prefix.mpr h)
      · exact Or.inr h

theorem mem_of_within {l₁ l₂ : Str} {c : Char} (h : l₁ <:+: l₂) (hc : c ∈ l₁) :
    c ∈ l₂ := h.subset hc

/-!  Helper lemmas: `splitDot`, `joinDot`, `lastN`. -/

theorem splitDot_cons_dot (rest : Str) : splitDot ('.' :: rest) = [] :: splitDot rest := by
  simp [splitDot]

theorem splitDot_cons_ne {c : Char} (hc : c ≠ '.') (rest : Str) :
    splitDot (c :: rest) =
      (c :: (splitDot rest).headD []) :: (splitDot rest).tail := by
  simp [splitDot, hc]

theorem splitDot_ne_nil (s : Str) : splitDot s ≠ [] := by
  cases s with
  | nil => simp [splitDot]
  | cons c rest =>
    by_cases hc : c = '.'
    · subst hc; rw [splitDot_cons_dot]; simp
    · rw [splitDot_cons_ne hc]; simp

theorem mem_splitDot_no_dot {s : Str} {p : Str} (hp : p ∈ splitDot s) : '.' ∉ p := by
  induction s generalizing p with
  | nil =>
    simp only [splitDot, List.mem_singleton] at hp
    subst hp; simp
  | cons c rest ih =>
    rcases hsp : splitDot rest with _ | ⟨q, tl⟩
    · exact absurd hsp (splitDot_ne_nil rest)
    · by_cases hc : c = '.'
      · subst hc
        rw [splitDot_cons_dot, hsp] at hp
        rcases List.mem_cons.mp hp with rfl | hp'
        · simp
        · exact ih (by rw [hsp]; exact hp')
      · rw [splitDot_cons_ne hc, hsp] at hp
        simp only [List.headD_cons, List.tail_cons] at hp
        rcases List.mem_cons.mp hp with rfl | hp'
        · intro hmem
          rcases List.mem_cons.mp hmem with h' | h'
          · exact hc h'.symm
          · exact ih (by rw [hsp]; exact List.mem_cons_self q tl) h'
        · exact ih (by rw [hsp]; exact List.mem_cons_of_mem q hp')

theorem joinDot_splitDot (s : Str) : joinDot (splitDot s) = s := by
  induction s with
  | nil => rfl
  | cons c rest ih =>
    rcases hsp : splitDot rest with _ | ⟨q, tl⟩
    · exact absurd hsp (splitDot_ne_nil rest)
    · rw [hsp] at ih
      by_cases hc : c = '.'
      · subst hc
        rw [splitDot_cons_dot, hsp]
        simp only [joinDot]
        rw [ih]
        simp
      · rw [splitDot_cons_ne hc, hsp]
        simp only [List.headD_cons, List.tail_cons]
        cases tl with
        | nil => simp only [joinDot] at ih ⊢; rw [ih]
        | cons r tl' =>
          simp only [joinDot] at ih ⊢
          rw [List.cons_append, ih]

theorem splitDot_append_dot (p : Str) (hp : '.' ∉ p) (t : Str) :
    splitDot (p ++ '.' :: t) = p :: splitDot t := by
  induction p with
  | nil => simp [splitDot]
  | cons c q ih =>
    have hc : c ≠ '.' := by intro h; exact hp (by simp [h])
    have hq : '.' ∉ q := fun h => hp (by simp [h])
    simp only [List.cons_append]
    rw [splitDot_cons_ne hc, ih hq]
    simp

theorem splitDot_no_dot (p : Str) (hp : '.' ∉ p) : splitDot p = [p] := by
  induction p with
  | nil => rfl
  | cons c q ih =>
    have hc : c ≠ '.' := by intro h; exact hp (by simp [h])
    have hq : '.' ∉ q := fun h => hp (by simp [h])
    rw [splitDot_cons_ne hc, ih hq]
    simp

theorem splitDot_joinDot (l : List Str) (hl : l ≠ [])
    (hdot : ∀ p ∈ l, '.' ∉ p) : splitDot (joinDot l) = l := by
  induction l with
  | nil => exact absurd rfl hl
  | cons p rest ih =>
    cases rest with
    | nil =>
      simp only [joinDot]
      exact splitDot_no_dot p (hdot p (by simp))
    | cons q tl =>
      simp only [joinDot]
      rw [splitDot_append_dot p (hdot p (by simp))]
      rw [ih (by simp) (fun r hr => hdot r (List.mem_cons_of_mem _ hr))]

theorem joinDot_drop_suffix (l : List Str) (k : Nat) :
    joinDot (l.drop k) <:+ joinDot l := by
  induction l generalizing k with
  | nil => simp
  | cons p rest ih =>
    cases k with
    | zero => simp
    | succ k' =>
      simp only [List.drop_succ_cons]
      cases rest with
      | nil => simp [joinDot]
      | cons q tl =>
        have h1 : joinDot ((q :: tl).drop k') <:+ joinDot (q :: tl) := ih k'
        have h2 : joinDot (q :: tl) <:+ joinDot (p :: q :: tl) := by
          simp only [joinDot]
          exact ⟨p ++ ['.'], by simp⟩
        exact h1.trans h2

theorem lastN_self_sub (n m : Nat) (l : List Str) (h : n ≤ m) :
    lastN n (lastN m l) = lastN n l := by
  unfold lastN
  rw [List.drop_drop, List.length_drop]
  congr 1
  omega

theorem lastN_length_of_le {n : Nat} {l : List Str} (h : n ≤ l.length) :
    (lastN n l).length = n := by
  unfold lastN
  rw [List.length_drop]
  omega

theorem mem_lastN {n : Nat} {l : List Str} {p : Str} (hp : p ∈ lastN n l) :
    p ∈ l := List.mem_of_mem_drop hp

theorem joinDot_lastN_suffix (h : Str) (n : Nat) :
    joinDot (lastN n (splitDot h)) <:+ h := by
  have := joinDot_drop_suffix (splitDot h) ((splitDot h).length - n)
  rwa [joinDot_splitDot] at this

theorem lastN_all {n : Nat} {l : List Str} (h : l.length ≤ n) : lastN n l = l := by
  unfold lastN
  have : l.length - n = 0 := by omega
  rw [this, List.drop_zero]

theorem multipart_split_len : ∀ t ∈ MULTIPART_TLDS, (splitDot t).length = 2 := by decide

theorem fourBranch_unreachable (h : Str) :
    ¬ ((if 3 ≤ (splitDot h).length then joinDot (lastN 3 (splitDot h)) else []) ∈ MULTIPART_TLDS
       ∧ 4 ≤ (splitDot h).length) := by
  rintro ⟨hmem, hlen⟩
  rw [if_pos (by omega)] at hmem
  have h3 : (lastN 3 (splitDot h)).length = 3 := lastN_length_of_le (by omega)
  have hdot : ∀ p ∈ lastN 3 (splitDot h), '.' ∉ p :=
    fun p hp => mem_splitDot_no_dot (mem_lastN hp)
  have hne : lastN 3 (splitDot h) ≠ [] := by
    intro h0; rw [h0] at h3; simp at h3
  have hsj := splitDot_joinDot _ hne hdot
  have h2 := multipart_split_len _ hmem
  rw [hsj] at h2
  omega

theorem domainFromHost_shape (h : Str) :
    ((splitDot h).length < 2 ∧ domainFromHost h = h) ∨
    (2 ≤ (splitDot h).length ∧ domainFromHost h = joinDot (lastN 2 (splitDot h))) ∨
    (joinDot (lastN 2 (splitDot h)) ∈ MULTIPART_TLDS ∧ 3 ≤ (splitDot h).length ∧
      domainFromHost h = joinDot (lastN 3 (splitDot h))) := by
  unfold domainFromHost
  by_cases h1 : (splitDot h).length < 2
  · rw [if_pos h1]; exact Or.inl ⟨h1, rfl⟩
  · rw [if_neg h1]
    by_cases h2 : joinDot (lastN 2 (splitDot h)) ∈ MULTIPART_TLDS ∧ 3 ≤ (splitDot h).length
    · rw [if_pos h2]; exact Or.inr (Or.inr ⟨h2.1, h2.2, rfl⟩)
    · rw [if_neg h2, if_neg (fourBranch_unreachable h)]
      exact Or.inr (Or.inl ⟨by omega, rfl⟩)

theorem domainFromHost_join2 {l2 : List Str} (hlen : l2.length = 2)
    (hdot : ∀ p ∈ l2, '.' ∉ p) : domainFromHost (joinDot l2) = joinDot l2 := by
  have hne : l2 ≠ [] := by intro h0; rw [h0] at hlen; simp at hlen
  have hsj := splitDot_joinDot l2 hne hdot
  simp only [domainFromHost]
  rw [hsj, hlen]
  rw [if_neg (by omega)]
  have hl2 : lastN 2 l2 = l2 := lastN_all (by omega)
  rw [if_neg (by rintro ⟨_, h3⟩; omega)]
  rw [if_neg (by rintro ⟨hm, _⟩; rw [if_neg (by omega)] at hm; exact absurd hm (by decide))]
  rw [hl2]

theorem domainFromHost_idem (h : Str) :
    domainFromHost (domainFromHost h) = domainFromHost h := by
  rcases domainFromHost_shape h with ⟨_, heq⟩ | ⟨hlen, heq⟩ | ⟨hmem, hlen, heq⟩
  · rw [heq, heq]
  · rw [heq]
    exact domainFromHost_join2 (lastN_length_of_le (by omega))
      (fun p hp => mem_splitDot_no_dot (mem_lastN hp))
  · rw [heq]
    have h3 : (lastN 3 (splitDot h)).length = 3 := lastN_length_of_le (by omega)
    have hdot : ∀ p ∈ lastN 3 (splitDot h), '.' ∉ p :=
      fun p hp => mem_splitDot_no_dot (mem_lastN hp)
    have hne : lastN 3 (splitDot h) ≠ [] := by
      intro h0; rw [h0] at h3; simp at h3
    have hsj := splitDot_joinDot _ hne hdot
    simp only [domainFromHost]
    rw [hsj, h3]
    rw [if_neg (by omega)]
    have h23 : lastN 2 (lastN 3 (splitDot h)) = lastN 2 (splitDot h) :=
      lastN_self_sub 2 3 _ (by omega)
    rw [if_pos (by rw [h23]; exact ⟨hmem, by omega⟩)]
    rw [lastN_all (by omega)]

theorem normalize_ok_cases {raw r : Str} (h : normalize_domain raw = .ok r) :
    r = [] ∨ ∃ host, r = domainFromHost host := by
  simp only [normalize_domain] at h
  split at h
  · exact Or.inl (by injection h with h'; exact h'.symm)
  · split at h
    · exact Or.inl (by injection h with h'; exact h'.symm)
    · split at h
      · cases h
      · exact Or.inl (by injection h with h'; exact h'.symm)
      · rename_i host _
        exact Or.inr ⟨stripWwwM host, by injection h with h'; exact h'.symm⟩

theorem pointwise_of_map_eq_self {f : Char → Char} {l : Str} (h : l.map f = l) :
    ∀ c ∈ l, f c = c := by
  induction l with
  | nil => intro c hc; cases hc
  | cons a t ih =>
    simp only [List.map_cons, List.cons.injEq] at h
    intro c hc
    rcases List.mem_cons.mp hc with rfl | hc'
    · exact h.1
    · exact ih h.2 c hc'

theorem https_findIdx (x : Str) :
    ((("https://").data ++ x).findIdx? (fun c => c = ':')) = some 5 := by
  simp [List.findIdx?_cons]

theorem https_take (x : Str) : ((("https://").data ++ x).take 5) = ("https").data := by
  rw [List.take_append_of_le_length (by simp)]
  decide

theorem https_drop (x : Str) : ((("https://").data ++ x).drop 6) = '/' :: '/' :: x := by
  rw [List.drop_append_of_le_length (by simp)]
  rfl

theorem urlparse_roundtrip (x : Str) (hne : x ≠ [])
    (hlow : pyLower x = x)
    (hchars : ∀ c ∈ x, ¬(c = ':' ∨ c = '[' ∨ c = ']' ∨ c = '@' ∨ c = '/' ∨
      c = '?' ∨ c = '#' ∨ c = '\t' ∨ c = '\r' ∨ c = '\n')) :
    urlparse_hostname (("https://").data ++ x) = .ok (some x) := by
  have hstrip : stripUnsafe (("https://").data ++ x) = ("https://").data ++ x := by
    unfold stripUnsafe
    rw [List.filter_append]
    have h1 : (("https://").data).filter
        (fun c => ¬(c = '\t' ∨ c = '\r' ∨ c = '\n')) = ("https://").data := by decide
    have h2 : x.filter (fun c => ¬(c = '\t' ∨ c = '\r' ∨ c = '\n')) = x := by
      apply List.filter_eq_self.mpr
      intro a ha
      have := hchars a ha
      simp only [decide_eq_true_eq]
      simp only [not_or] at this
      simp [this.2.2.2.2.2.2.2.1, this.2.2.2.2.2.2.2.2.1, this.2.2.2.2.2.2.2.2.2]
    rw [h1, h2]
  have hif : (if 0 < 5 ∧ headIsLetter (("https://").data ++ x) = true ∧
      ((("https://").data ++ x).take 5).all schemeChar = true then
      (("https://").data ++ x).drop (5 + 1) else (("https://").data ++ x)) = '/' :: '/' :: x := by
    rw [if_pos ?_]
    · exact https_drop x
    · exact ⟨by omega, rfl, by rw [https_take]; decide⟩
  have hscheme : splitSchemeUrl (("https://").data ++ x) = '/' :: '/' :: x := by
    unfold splitSchemeUrl
    rw [https_findIdx]
    exact hif
  have htw : x.takeWhile (fun c => ¬(c = '/' ∨ c = '?' ∨ c = '#')) = x := by
    apply List.takeWhile_eq_self_iff.mpr
    intro a ha
    have := hchars a ha
    simp only [not_or] at this
    simp [this.2.2.2.2.1, this.2.2.2.2.2.1, this.2.2.2.2.2.2.1]
  have hnoLb : ¬ '[' ∈ x := fun hmem => hchars '[' hmem (by simp)
  have hnoRb : ¬ ']' ∈ x := fun hmem => hchars ']' hmem (by simp)
  have hafter : afterLastAt x = x := by
    unfold afterLastAt
    rw [List.takeWhile_eq_self_iff.mpr ?_, List.reverse_reverse]
    intro a ha
    rw [List.mem_reverse] at ha
    have := hchars a ha
    simp only [not_or] at this
    simp [this.2.2.2.1]
  have hhp : hostportOf x = x := by
    unfold hostportOf
    rw [if_neg hnoLb]
    apply List.takeWhile_eq_self_iff.mpr
    intro a ha
    have := hchars a ha
    simp only [not_or] at this
    simp [this.1]
  have hlz : lowerZone x = x := by
    unfold lowerZone
    have hpt := pointwise_of_map_eq_self hlow
    have h1 : pyLower (x.takeWhile (fun c => ¬ c = '%')) =
        x.takeWhile (fun c => ¬ c = '%') := by
      apply map_eq_self_of_fix
      intro c hc
      exact hpt c ((List.takeWhile_prefix _).sublist.subset hc)
    rw [h1, List.takeWhile_append_dropWhile]
  simp only [urlparse_hostname]
  rw [hstrip, hscheme]
  have hnet : netlocOf ('/' :: '/' :: x) =
      some (x.takeWhile (fun c => ¬(c = '/' ∨ c = '?' ∨ c = '#'))) := rfl
  rw [hnet, htw]
  show (if ('[' ∈ x ∧ ¬ ']' ∈ x) ∨ (']' ∈ x ∧ ¬ '[' ∈ x) then Except.error PyErr.valueError
    else if hostportOf (afterLastAt x) = [] then Except.ok Option.none
    else Except.ok (some (lowerZone (hostportOf (afterLastAt x))))) = Except.ok (some x)
  rw [if_neg (by rintro (⟨h1, _⟩ | ⟨h1, _⟩) <;> [exact hnoLb h1; exact hnoRb h1])]
  rw [hafter, hhp, if_neg hne, hlz]

theorem normalize_plain (x : Str) (hne : x ≠ [])
    (hstr : pyStrip x = x) (hlow : pyLower x = x)
    (hchars : ∀ c ∈ x, ¬(c = ':' ∨ c = '[' ∨ c = ']' ∨ c = '@' ∨ c = '/' ∨
      c = '?' ∨ c = '#' ∨ c = '\t' ∨ c = '\r' ∨ c = '\n'))
    (hw : ¬ ((("www.").data : Str) <+: x)) (hm : ¬ ((("m.").data : Str) <+: x)) :
    normalize_domain x = .ok (domainFromHost x) := by
  have hs : pyLower (pyStrip x) = x := by rw [hstr, hlow]
  have hat : ¬ '@' ∈ x := fun hmem => hchars '@' hmem (by simp)
  have hsub : strHas x (("://").data) = false := by
    rw [Bool.eq_false_iff]
    intro hcontra
    have hinf := strHas_iff.mp hcontra
    have hcol : ':' ∈ x := mem_of_within hinf (by decide)
    exact hchars ':' hcol (by simp)
  have hstrip2 : stripWwwM x = x := by
    unfold stripWwwM
    rw [if_neg (fun hpre => hw (List.isPrefixOf_iff_prefix.mp hpre))]
    rw [if_neg (fun hpre => hm (List.isPrefixOf_iff_prefix.mp hpre))]
  simp only [normalize_domain]
  rw [if_neg hne, hs, hsub]
  rw [if_neg (by rintro ⟨h1, _⟩; exact hat h1)]
  simp only [Bool.false_eq_true, if_false]
  rw [urlparse_roundtrip x hne hlow hchars]
  show Except.ok (domainFromHost (stripWwwM x)) = Except.ok (domainFromHost x)
  rw [hstrip2]

theorem splitSchemeUrl_subset (l : Str) : ∀ c ∈ splitSchemeUrl l, c ∈ l := by
  unfold splitSchemeUrl
  intro c hc
  split at hc
  · exact hc
  · split at hc
    · exact List.mem_of_mem_drop hc
    · exact hc

theorem mem_stripUnsafe {u : Str} {c : Char} (hc : c ∈ stripUnsafe u) :
    c ∈ u ∧ ¬(c = '\t' ∨ c = '\r' ∨ c = '\n') := by
  unfold stripUnsafe at hc
  have := List.mem_filter.mp hc
  refine ⟨this.1, ?_⟩
  have h2 := this.2
  simpa using h2

theorem netlocOf_eq_some {l nl : Str} (h : netlocOf l = some nl) :
    ∃ rest, l = '/' :: '/' :: rest ∧
      nl = rest.takeWhile (fun c => ¬(c = '/' ∨ c = '?' ∨ c = '#')) := by
  unfold netlocOf at h
  split at h
  · rename_i rest
    exact ⟨rest, rfl, by injection h with h'; exact h'.symm⟩
  · cases h

theorem mem_afterLastAt {t : Str} {c : Char} (hc : c ∈ afterLastAt t) :
    c ∈ t ∧ c ≠ '@' := by
  unfold afterLastAt at hc
  rw [List.mem_reverse] at hc
  constructor
  · have := (List.takeWhile_prefix _).sublist.subset hc
    rwa [List.mem_reverse] at this
  · have := List.mem_takeWhile_imp hc
    simpa using this

theorem mem_hostportOf {t : Str} {c : Char} (hc : c ∈ hostportOf t) : c ∈ t := by
  unfold hostportOf at hc
  split at hc
  · have h1 := (List.takeWhile_prefix _).sublist.subset hc
    have h2 := (List.tail_sublist _).subset h1
    exact (List.dropWhile_suffix _).sublist.subset h2
  · exact (List.takeWhile_prefix _).sublist.subset hc

theorem mem_lowerZone {t : Str} {c : Char} (hc : c ∈ lowerZone t) :
    ∃ c₀ ∈ t, c = lowerChar c₀ ∨ c = c₀ := by
  unfold lowerZone at hc
  rcases List.mem_append.mp hc with h | h
  · rcases List.mem_map.mp h with ⟨c₀, hc₀, rfl⟩
    exact ⟨c₀, (List.takeWhile_prefix _).sublist.subset hc₀, Or.inl rfl⟩
  · exact ⟨c, (List.dropWhile_suffix _).sublist.subset h, Or.inr rfl⟩

theorem hostname_chars {u h : Str} (hok : urlparse_hostname u = .ok (some h)) :
    ∀ c ∈ h, ¬(c = '@' ∨ c = '/' ∨ c = '?' ∨ c = '#' ∨ c = '\t' ∨ c = '\r' ∨ c = '\n') := by
  simp only [urlparse_hostname] at hok
  split at hok
  · cases hok
  · rename_i netloc heq
    split at hok
    · cases hok
    · split at hok
      · cases hok
      · injection hok with h1
        injection h1 with h2
        intro c hc
        rw [← h2] at hc
        rcases mem_lowerZone hc with ⟨c₀, hc₀, hcase⟩
        have hchp := mem_hostportOf hc₀
        have hcal := mem_afterLastAt hchp
        rcases netlocOf_eq_some heq with ⟨rest, hurl, hnl⟩
        rw [hnl] at hcal
        have hq := List.mem_takeWhile_imp hcal.1
        have hmem1 := (List.takeWhile_prefix _).sublist.subset hcal.1
        have hmem2 : c₀ ∈ splitSchemeUrl (stripUnsafe u) := by
          rw [hurl]
          exact List.mem_cons_of_mem _ (List.mem_cons_of_mem _ hmem1)
        have hmem3 := splitSchemeUrl_subset _ _ hmem2
        have hfil := (mem_stripUnsafe hmem3).2
        have hqq : ¬(c₀ = '/' ∨ c₀ = '?' ∨ c₀ = '#') := by simpa using hq
        have hats : c₀ ≠ '@' := hcal.2
        simp only [not_or] at hqq hfil
        rcases hcase with rfl | rfl
        · rcases lowerChar_fix_or_lower c₀ with hfix | hlo
          · rw [hfix]
            simp [hats, hqq.1, hqq.2.1, hqq.2.2, hfil.1, hfil.2.1, hfil.2.2]
          · intro hbad
            rcases hbad with hb | hb | hb | hb | hb | hb | hb <;>
              (rw [hb] at hlo; revert hlo; decide)
        · simp [hats, hqq.1, hqq.2.1, hqq.2.2, hfil.1, hfil.2.1, hfil.2.2]

theorem domainFromHost_suffix (h : Str) : domainFromHost h <:+ h := by
  rcases domainFromHost_shape h with ⟨_, heq⟩ | ⟨_, heq⟩ | ⟨_, _, heq⟩
  · rw [heq]
  · rw [heq]; exact joinDot_lastN_suffix h 2
  · rw [heq]; exact joinDot_lastN_suffix h 3

theorem stripWwwM_suffix (h : Str) : stripWwwM h <:+ h := by
  unfold stripWwwM
  split
  · exact List.drop_suffix 4 h
  · split
    · exact List.drop_suffix 2 h
    · exact List.suffix_refl h

theorem normalize_ok_struct {raw r : Str} (h : normalize_domain raw = .ok r) :
    r = [] ∨ ∃ u host, urlparse_hostname u = .ok (some host) ∧
      r = domainFromHost (stripWwwM host) := by
  simp only [normalize_domain] at h
  split at h
  · exact Or.inl (by injection h with h'; exact h'.symm)
  · split at h
    · exact Or.inl (by injection h with h'; exact h'.symm)
    · split at h
      · cases h
      · exact Or.inl (by injection h with h'; exact h'.symm)
      · rename_i heq host hmat
        exact Or.inr ⟨_, host, hmat, by injection h with h'; exact h'.symm⟩

theorem infix_scheme_of_map {t : Str}
    (h : ((("://").data : Str)) <:+: List.map lowerChar t) :
    ((("://").data : Str)) <:+: t := by
  obtain ⟨s', t', hst⟩ := h
  obtain ⟨s₁, rest₁, hsplit, hs₁, hrest₁⟩ := List.map_eq_append_iff.mp hst.symm
  obtain ⟨s₂, m₁, hsplit₂, hs₂, hm₁⟩ := List.map_eq_append_iff.mp hs₁
  obtain ⟨c1, m₂, hm2, hc1, hm₂'⟩ := List.map_eq_cons_iff.mp hm₁
  obtain ⟨c2, m₃, hm3, hc2, hm₃'⟩ := List.map_eq_cons_iff.mp hm₂'
  obtain ⟨c3, m₄, hm4, hc3, hm₄'⟩ := List.map_eq_cons_iff.mp hm₃'
  have hm4nil : m₄ = [] := by
    have := congrArg List.length hm₄'
    simpa using this
  have hc1' : c1 = ':' := lowerChar_eq_of_not_lower hc1 (by decide)
  have hc2' : c2 = '/' := lowerChar_eq_of_not_lower hc2 (by decide)
  have hc3' : c3 = '/' := lowerChar_eq_of_not_lower hc3 (by decide)
  refine ⟨s₂, rest₁, ?_⟩
  rw [hsplit, hsplit₂, hm2, hm3, hm4, hm4nil, hc1', hc2', hc3']

theorem normalize_email_heuristic (raw : Str) (hat : '@' ∈ raw)
    (hns : ¬ ((("://").data : Str) <:+: raw)) : normalize_domain raw = .ok [] := by
  have hne : raw ≠ [] := by intro h0; subst h0; cases hat
  have hat2 : '@' ∈ pyLower (pyStrip raw) := by
    have h1 : '@' ∈ pyStrip raw := mem_pyStrip_of_not_space hat (by decide)
    exact List.mem_map.mpr ⟨'@', h1, by decide⟩
  have hns2 : strHas (pyLower (pyStrip raw)) (("://").data) = false := by
    rw [Bool.eq_false_iff]
    intro hcon
    apply hns
    have hinf := strHas_iff.mp hcon
    have hinf2 := infix_scheme_of_map hinf
    exact hinf2.trans (pyStrip_within raw)
  simp only [normalize_domain]
  rw [if_neg hne, hns2]
  rw [if_pos ⟨hat2, by simp⟩]

theorem canonical_chars {y x : Str} (h : normalize_domain y = .ok x) (hx : x ≠ []) :
    ∀ c ∈ x, ¬(c = '@' ∨ c = '/' ∨ c = '?' ∨ c = '#' ∨ c = '\t' ∨ c = '\r' ∨ c = '\n') := by
  rcases normalize_ok_struct h with rfl | ⟨u, host, hu, hr⟩
  · exact absurd rfl hx
  · intro c hc
    have h1 : c ∈ stripWwwM host :=
      (domainFromHost_suffix _).sublist.subset (hr ▸ hc)
    have h2 : c ∈ host := (stripWwwM_suffix _).sublist.subset h1
    exact hostname_chars hu c h2

/-- C1: `normalize_domain` is idempotent on canonical outputs provided the
output is fully stripped and lowercase, contains none of `:`, `[`, `]`, and
does not begin with `www.` or `m.` (outputs violating these — IPv6-derived
hosts, bracket leftovers, hosts whose registrable part begins with `www.` or
`m.` — are not fixed points, see the counterexample). -/
theorem C1_normalize_idem_amended (y x : Str)
    (hcanon : normalize_domain y = .ok x)
    (hstr : pyStrip x = x) (hlow : pyLower x = x)
    (hcol : ¬ ':' ∈ x) (hlb : ¬ '[' ∈ x) (hrb : ¬ ']' ∈ x)
    (hw : ¬ ((("www.").data : Str) <+: x)) (hm : ¬ ((("m.").data : Str) <+: x)) :
    normalize_domain x = .ok x := by
  by_cases hx : x = []
  · subst hx; rfl
  · have hbad := canonical_chars hcanon hx
    have hchars : ∀ c ∈ x, ¬(c = ':' ∨ c = '[' ∨ c = ']' ∨ c = '@' ∨ c = '/' ∨
        c = '?' ∨ c = '#' ∨ c = '\t' ∨ c = '\r' ∨ c = '\n') := by
      intro c hc hdis
      rcases hdis with rfl | rfl | rfl | h' | h' | h' | h' | h' | h' | h'
      · exact hcol hc
      · exact hlb hc
      · exact hrb hc
      · exact hbad c hc (Or.inl h')
      · exact hbad c hc (Or.inr (Or.inl h'))
      · exact hbad c hc (Or.inr (Or.inr (Or.inl h')))
      · exact hbad c hc (Or.inr (Or.inr (Or.inr (Or.inl h'))))
      · exact hbad c hc (Or.inr (Or.inr (Or.inr (Or.inr (Or.inl h')))))
      · exact hbad c hc (Or.inr (Or.inr (Or.inr (Or.inr (Or.inr (Or.inl h'))))))
      · exact hbad c hc (Or.inr (Or.inr (Or.inr (Or.inr (Or.inr (Or.inr h'))))))
    rcases normalize_ok_struct hcanon with rfl | ⟨u, host, hu, hr⟩
    · exact absurd rfl hx
    · have hplain := normalize_plain x hx hstr hlow hchars hw hm
      rw [hplain, hr, domainFromHost_idem]

/-- C1 witness: the amended idempotence applied at the canonical output of
`normalize_domain("https://example.com")`. -/
theorem C1_normalize_idem_witness :
    normalize_domain (("example.com").data) = .ok (("example.com").data) :=
  C1_normalize_idem_amended (("https://example.com").data) (("example.com").data)
    (by decide) (by decide) (by decide) (by decide) (by decide) (by decide)
    (by decide) (by decide)

/-- C1 counterexample: `"www.b"` is in canonical form (it is the output of
`normalize_domain` on `"a.www.b"`), yet re-normalizing strips its `www.`
prefix and yields `"b"`, so `normalize_domain` is not idempotent on canonical
form as claimed. -/
theorem C1_normalize_idem_cex :
    normalize_domain (("a.www.b").data) = .ok (("www.b").data) ∧
    normalize_domain (("www.b").data) = .ok (("b").data) ∧
    (("www.b").data : Str) ≠ (("b").data) :=
  ⟨by decide, by decide, by decide⟩

/-- C4: any string containing `@` and no `://` scheme delimiter normalizes to
the empty string (the email heuristic fires before URL parsing). -/
theorem C4_email_rejected (raw : Str) (hat : '@' ∈ raw)
    (hns : ¬ ((("://").data : Str) <:+: raw)) :
    normalize_domain raw = .ok [] :=
  normalize_email_heuristic raw hat hns

/-- C4 witness: the spec's own example `normalize("user@example.com") == ""`. -/
theorem C4_email_rejected_witness :
    normalize_domain (("user@example.com").data) = .ok [] :=
  C4_email_rejected (("user@example.com").data) (by decide) (by decide)

/-- C7 (amended): for a plain host string — nonempty, stripped, lowercase,
free of URL-special characters, not beginning with `www.` or `m.` — whose
last two labels are in `MULTIPART_TLDS` and which has at least three labels,
`normalize_domain` returns the last three labels joined by dots. -/
theorem C7_multipart_lastthree_amended (x : Str) (hne : x ≠ [])
    (hstr : pyStrip x = x) (hlow : pyLower x = x)
    (hchars : ∀ c ∈ x, ¬(c = ':' ∨ c = '[' ∨ c = ']' ∨ c = '@' ∨ c = '/' ∨
      c = '?' ∨ c = '#' ∨ c = '\t' ∨ c = '\r' ∨ c = '\n'))
    (hw : ¬ ((("www.").data : Str) <+: x)) (hm : ¬ ((("m.").data : Str) <+: x))
    (htab : joinDot (lastN 2 (splitDot x)) ∈ MULTIPART_TLDS)
    (hlen : 3 ≤ (splitDot x).length) :
    normalize_domain x = .ok (joinDot (lastN 3 (splitDot x))) := by
  rw [normalize_plain x hne hstr hlow hchars hw hm]
  simp only [domainFromHost]
  rw [if_neg (by omega), if_pos ⟨htab, hlen⟩]

/-- C7 witness: the spec's own example
`normalize("sub.example.co.uk") == "example.co.uk"`. -/
theorem C7_multipart_lastthree_witness :
    normalize_domain (("sub.example.co.uk").data) =
      .ok (joinDot (lastN 3 (splitDot (("sub.example.co.uk").data)))) :=
  C7_multipart_lastthree_amended (("sub.example.co.uk").data) (by decide)
    (by decide) (by decide) (by decide) (by decide) (by decide) (by decide)
    (by decide)

/-- C7 counterexample: `"www.co.uk"` has three labels whose last two are in
the table, yet `normalize_domain` returns `"co.uk"`, not the last three
labels `"www.co.uk"` — the `www.` prefix strip runs first. -/
theorem C7_multipart_lastthree_cex :
    (splitDot (("www.co.uk").data)).length = 3 ∧
    joinDot (lastN 2 (splitDot (("www.co.uk").data))) ∈ MULTIPART_TLDS ∧
    normalize_domain (("www.co.uk").data) = .ok (("co.uk").data) ∧
    (Except.ok (("co.uk").data) : Except PyErr Str) ≠
      .ok (joinDot (lastN 3 (splitDot (("www.co.uk").data)))) :=
  ⟨by decide, by decide, by decide, by decide⟩

/-- C9: the four-label branch of `normalize_domain` is unreachable — its
guard `last_three in MULTIPART_TLDS and len(parts) >= 4` never holds, since
every table entry has exactly two labels — and hence every result of the
suffix logic is the host itself (fewer than 2 labels), the last two labels,
or the last three labels, and every `.ok` result of `normalize_domain` is
empty or comes from that logic. -/
theorem C9_four_label_unreachable :
    (∀ h : Str, ¬ ((if 3 ≤ (splitDot h).length then joinDot (lastN 3 (splitDot h)) else [])
        ∈ MULTIPART_TLDS ∧ 4 ≤ (splitDot h).length)) ∧
    (∀ h : Str, ((splitDot h).length < 2 ∧ domainFromHost h = h) ∨
      domainFromHost h = joinDot (lastN 2 (splitDot h)) ∨
      domainFromHost h = joinDot (lastN 3 (splitDot h))) ∧
    (∀ raw r : Str, normalize_domain raw = .ok r →
      r = [] ∨ ∃ host, r = domainFromHost host) := by
  refine ⟨fourBranch_unreachable, ?_, ?_⟩
  · intro h
    rcases domainFromHost_shape h with ⟨hl, he⟩ | ⟨_, he⟩ | ⟨_, _, he⟩
    · exact Or.inl ⟨hl, he⟩
    · exact Or.inr (Or.inl he)
    · exact Or.inr (Or.inr he)
  · intro raw r h
    exact normalize_ok_cases h

/-- C9 witness: the result shape at the concrete input `"a.b"`. -/
theorem C9_four_label_unreachable_witness :
    (("a.b").data : Str) = [] ∨ ∃ host, (("a.b").data : Str) = domainFromHost host :=
  C9_four_label_unreachable.2.2 (("a.b").data) (("a.b").data) (by decide)

/-- C5: a cache hit returns the cached record unchanged, with no network
call, no cache write, and no rate-limit sleep, whatever the network would
have done. -/
theorem C5_cache_hit (cache : List (Str × PyVal)) (domain : Str)
    (net : NetOutcome) (v : PyVal) (h : assocFind cache domain = some v) :
    lookup_tosdr cache domain net = .ok ⟨v, cache, false, false, 0⟩ := by
  unfold lookup_tosdr
  rw [h]

/-- C5 witness: a concrete one-entry cache hit under a failing network. -/
theorem C5_cache_hit_witness :
    lookup_tosdr [((("a.com").data), defaultRecord (("a.com").data))]
      (("a.com").data) .exn =
    .ok ⟨defaultRecord (("a.com").data),
      [((("a.com").data), defaultRecord (("a.com").data))], false, false, 0⟩ :=
  C5_cache_hit _ _ _ _ (by rfl)

/-!  Well-formedness of a search response body (for the amended claim C2). -/

/-- Values over which `any(domain in url for url in urls)` cannot raise. -/
def urlsOkForIn (urls : PyVal) : Bool :=
  match urls with
  | .str _ => true
  | .dict _ => true
  | .list us =>
    us.all (fun u => match u with
      | .str _ => true | .list _ => true | .dict _ => true | _ => false)
  | _ => false

/-- Values of `service.get("id")` on which `int(service_id)` cannot raise. -/
def idOk (sid : PyVal) : Bool :=
  if truthy sid then
    match sid with
    | .int _ => true
    | .bool _ => true
    | .str t => intLitOk t
    | _ => false
  else true

/-- A service descriptor `lookup_tosdr` can digest without raising. -/
def WFService (s : PyVal) : Bool :=
  match s with
  | .dict sd =>
    urlsOkForIn ((assocFind sd kUrls).getD (.list [])) &&
    idOk ((assocFind sd kId).getD .none)
  | _ => false

/-- The `parameters` object of a well-formed body: its `services` entry, if
present and truthy, is a list of digestible service dicts. -/
def WFParams (params : PyVal) : Bool :=
  match params with
  | .dict pd =>
    match assocFind pd kServices with
    | Option.none => true
    | some (.list ss) => ss.all WFService
    | some v => ! truthy v
  | _ => false

/-- A response body of the shape the spec documents
(`parameters.services[]`), restricted so the client's digestion is total. -/
def WFBody (b : PyVal) : Bool :=
  if truthy b = false then true
  else
    match b with
    | .dict bd =>
      match assocFind bd kParameters with
      | Option.none => true
      | some params => WFParams params
    | _ => false

theorem anyUrlHasDomain_total {domain : Str} {us : List PyVal}
    (h : ∀ u ∈ us, ∃ b, pyInStr domain u = .ok b) :
    ∃ b, anyUrlHasDomain domain us = .ok b := by
  induction us with
  | nil => exact ⟨false, rfl⟩
  | cons u rest ih =>
    obtain ⟨b, hb⟩ := h u (by simp)
    obtain ⟨b', hb'⟩ := ih (fun u' hu' => h u' (List.mem_cons_of_mem _ hu'))
    cases b with
    | true => exact ⟨true, by unfold anyUrlHasDomain; rw [hb]⟩
    | false => exact ⟨b', by unfold anyUrlHasDomain; rw [hb]; exact hb'⟩

theorem iter_urls_ok (domain : Str) {urls : PyVal} (h : urlsOkForIn urls = true) :
    ∃ us, pyIterE urls = .ok us ∧ ∀ u ∈ us, ∃ b, pyInStr domain u = .ok b := by
  cases urls with
  | str t =>
    refine ⟨_, rfl, ?_⟩
    intro u hu
    rcases List.mem_map.mp hu with ⟨c, _, rfl⟩
    exact ⟨_, rfl⟩
  | dict d =>
    refine ⟨_, rfl, ?_⟩
    intro u hu
    rcases List.mem_map.mp hu with ⟨kv, _, rfl⟩
    exact ⟨_, rfl⟩
  | list xs =>
    refine ⟨xs, rfl, ?_⟩
    intro u hu
    have := List.all_eq_true.mp h u hu
    cases u with
    | str _ => exact ⟨_, rfl⟩
    | list _ => exact ⟨_, rfl⟩
    | dict _ => exact ⟨_, rfl⟩
    | none => cases this
    | bool b => cases this
    | int n => cases this
  | none => cases h
  | bool b => cases h
  | int n => cases h

theorem bestMatchLoop_total (domain : Str) {ss : List PyVal}
    (h : ∀ s ∈ ss, WFService s = true) :
    ∃ o, bestMatchLoop domain ss = .ok o ∧ ∀ s, o = some s → s ∈ ss := by
  induction ss with
  | nil => exact ⟨Option.none, rfl, by intro s hs; cases hs⟩
  | cons s rest ih =>
    have hs := h s (by simp)
    obtain ⟨o', ho', hmem'⟩ := ih (fun s' hs' => h s' (List.mem_cons_of_mem _ hs'))
    cases s with
    | dict sd =>
      have hand : urlsOkForIn ((assocFind sd kUrls).getD (.list [])) = true ∧
          idOk ((assocFind sd kId).getD .none) = true := by
        simpa [WFService] using hs
      have hurls := hand.1
      obtain ⟨us, hus, hins⟩ := iter_urls_ok domain hurls
      obtain ⟨b, hb⟩ := anyUrlHasDomain_total hins
      cases b with
      | true =>
        refine ⟨some (.dict sd), ?_, ?_⟩
        · simp only [bestMatchLoop, hus, hb]
        · intro s' hs'; injection hs' with h'; rw [← h']; simp
      | false =>
        refine ⟨o', ?_, fun s' hs' => List.mem_cons_of_mem _ (hmem' s' hs')⟩
        simp only [bestMatchLoop, hus, hb]
        exact ho'
    | none => exact ⟨o', ho', fun s' hs' => List.mem_cons_of_mem _ (hmem' s' hs')⟩
    | bool b => exact ⟨o', ho', fun s' hs' => List.mem_cons_of_mem _ (hmem' s' hs')⟩
    | int n => exact ⟨o', ho', fun s' hs' => List.mem_cons_of_mem _ (hmem' s' hs')⟩
    | str t => exact ⟨o', ho', fun s' hs' => List.mem_cons_of_mem _ (hmem' s' hs')⟩
    | list xs => exact ⟨o', ho', fun s' hs' => List.mem_cons_of_mem _ (hmem' s' hs')⟩

theorem convertId_total {sid0 : PyVal} (h : idOk sid0 = true) :
    ∃ v, convertId sid0 = .ok v := by
  unfold convertId
  unfold idOk at h
  by_cases ht : truthy sid0
  · rw [if_pos ht] at h
    rw [if_pos ht]
    cases sid0 with
    | int n => exact ⟨_, rfl⟩
    | bool b => exact ⟨_, rfl⟩
    | str t =>
      have h' : intLitOk t = true := by simpa using h
      exact ⟨.int (intLitVal t), by simp [pyInt, h']⟩
    | none => cases h
    | list xs => cases h
    | dict d => cases h
  · rw [if_neg ht]
    exact ⟨_, rfl⟩

theorem extractService_total (domain : Str) {s : PyVal} (h : WFService s = true) :
    ∃ out, extractService s domain = .ok out := by
  cases s with
  | dict sd =>
    have hand : urlsOkForIn ((assocFind sd kUrls).getD (.list [])) = true ∧
        idOk ((assocFind sd kId).getD .none) = true := by
      simpa [WFService] using h
    obtain ⟨v, hv⟩ := convertId_total hand.2
    unfold extractService
    simp only [pyGetE, hv]
    exact ⟨_, rfl⟩
  | none => cases h
  | bool b => cases h
  | int n => cases h
  | str t => cases h
  | list xs => cases h

theorem any_key_iff {d : List (Str × PyVal)} {k : Str} :
    d.any (fun kv => kv.1 = k) = true ↔ ∃ v, assocFind d k = some v := by
  induction d with
  | nil => simp [assocFind]
  | cons kv rest ih =>
    rcases kv with ⟨k', v'⟩
    by_cases hk : k' = k
    · subst hk
      simp [assocFind]
    · simp [assocFind, hk, ih]

theorem bestMatch_total (domain : Str) {b : PyVal} (h : WFBody b = true) :
    bestMatch b domain = .ok Option.none ∨
    ∃ s, bestMatch b domain = .ok (some s) ∧ WFService s = true := by
  by_cases ht : truthy b = true
  case neg =>
    left
    unfold bestMatch
    rw [if_pos (by simpa using ht)]
  case pos =>
    cases b with
    | dict bd =>
      unfold bestMatch
      rw [if_neg (by simp [ht])]
      cases hfind : assocFind bd kParameters with
      | none =>
        have hany : bd.any (fun kv => kv.1 = kParameters) = false := by
          rw [Bool.eq_false_iff]
          intro hc
          obtain ⟨v, hvv⟩ := any_key_iff.mp hc
          rw [hfind] at hvv
          cases hvv
        left
        simp [pyInStr, hany]
      | some params =>
        have hany : bd.any (fun kv => kv.1 = kParameters) = true :=
          any_key_iff.mpr ⟨params, hfind⟩
        have hWP : WFParams params = true := by
          simp only [WFBody, ht, hfind] at h
          simpa using h
        cases params with
        | dict pd =>
          cases hsv : assocFind pd kServices with
          | none =>
            left
            simp [pyInStr, hany, pySubscriptStr, hfind, pyGetE, hsv, truthy]
          | some sv =>
            cases sv with
            | list ss =>
              have hall : ∀ s ∈ ss, WFService s = true := by
                intro s hs
                have h2 := hWP
                simp only [WFParams, hsv] at h2
                exact List.all_eq_true.mp (by simpa using h2) s hs
              by_cases hts : truthy (.list ss) = true
              · obtain ⟨o, ho, hmem⟩ := bestMatchLoop_total domain hall
                cases o with
                | some s =>
                  right
                  refine ⟨s, ?_, hall s (hmem s rfl)⟩
                  simp [pyInStr, hany, pySubscriptStr, hfind, pyGetE, hsv,
                    hts, pyIterE, ho]
                | none =>
                  cases ss with
                  | nil => simp [truthy] at hts
                  | cons s₀ tl =>
                    right
                    refine ⟨s₀, ?_, hall s₀ (by simp)⟩
                    simp [pyInStr, hany, pySubscriptStr, hfind, pyGetE, hsv,
                      hts, pyIterE, ho, pySubscriptZero]
              · have hts' : truthy (.list ss) = false := by simpa using hts
                left
                simp [pyInStr, hany, pySubscriptStr, hfind, pyGetE, hsv, hts']
            | none =>
              left
              simp [pyInStr, hany, pySubscriptStr, hfind, pyGetE, hsv, truthy]
            | bool bb =>
              have hfb : truthy (PyVal.bool bb) = false := by
                have h2 := hWP
                simp only [WFParams, hsv] at h2
                simpa using h2
              left
              simp [pyInStr, hany, pySubscriptStr, hfind, pyGetE, hsv, hfb]
            | int n =>
              have hfb : truthy (PyVal.int n) = false := by
                have h2 := hWP
                simp only [WFParams, hsv] at h2
                simpa using h2
              left
              simp [pyInStr, hany, pySubscriptStr, hfind, pyGetE, hsv, hfb]
            | str t =>
              have hfb : truthy (PyVal.str t) = false := by
                have h2 := hWP
                simp only [WFParams, hsv] at h2
                simpa using h2
              left
              simp [pyInStr, hany, pySubscriptStr, hfind, pyGetE, hsv, hfb]
            | dict dd =>
              have hfb : truthy (PyVal.dict dd) = false := by
                have h2 := hWP
                simp only [WFParams, hsv] at h2
                simpa using h2
              left
              simp [pyInStr, hany, pySubscriptStr, hfind, pyGetE, hsv, hfb]
        | none => simp [WFParams] at hWP
        | bool bb => simp [WFParams] at hWP
        | int n => simp [WFParams] at hWP
        | str t => simp [WFParams] at hWP
        | list xs => simp [WFParams] at hWP
    | none => simp [truthy] at ht
    | bool bb => simp [WFBody, ht] at h
    | int n => simp [WFBody, ht] at h
    | str t => simp [WFBody, ht] at h
    | list xs => simp [WFBody, ht] at h

/-- C2 (amended): over the expiring cache and any network outcome whose
response body is well-formed (`parameters.services[]` with digestible service
dicts), `lookup_tosdr` never raises — it always returns a record — and on the
failure paths (request exception, non-ok status, or no candidate) the record
is exactly `{grade: Unknown, service_id: None, name: domain}`, cached, after
one network call and one rate-limit sleep.  On adversarially-typed bodies the
original claim fails: see the counterexample, where `int(service_id)` raises
`ValueError`. -/
theorem C2_lookup_no_raise_amended (cache : List (Str × PyVal)) (domain : Str)
    (net : NetOutcome)
    (hwf : ∀ ok body, net = .resp ok body → WFBody body = true) :
    (∃ r, lookup_tosdr cache domain net = .ok r) ∧
    (assocFind cache domain = Option.none →
      (net = .exn ∨ (∃ b, net = .resp false b) ∨
        (∃ b, net = .resp true b ∧ bestMatch b domain = .ok Option.none)) →
      lookup_tosdr cache domain net =
        .ok ⟨defaultRecord domain, assocSet cache domain (defaultRecord domain),
          true, true, 1⟩) := by
  cases hfind : assocFind cache domain with
  | some v =>
    constructor
    · exact ⟨_, by unfold lookup_tosdr; rw [hfind]⟩
    · intro hnone
      cases hnone
  | none =>
    cases net with
    | exn =>
      constructor
      · exact ⟨⟨defaultRecord domain, assocSet cache domain (defaultRecord domain),
          true, true, 1⟩, by unfold lookup_tosdr; rw [hfind]⟩
      · intro _ _
        unfold lookup_tosdr
        rw [hfind]
    | resp ok body =>
      have hWF : WFBody body = true := hwf ok body rfl
      by_cases hok : ok = true
      case neg =>
        have hof : ok = false := by simpa using hok
        subst hof
        constructor
        · exact ⟨⟨defaultRecord domain, assocSet cache domain (defaultRecord domain),
            true, true, 1⟩, by unfold lookup_tosdr; rw [hfind]; rfl⟩
        · intro _ _
          unfold lookup_tosdr
          rw [hfind]
          rfl
      case pos =>
        subst hok
        rcases bestMatch_total domain hWF with hbm | ⟨s, hbm, hWFs⟩
        · constructor
          · exact ⟨⟨defaultRecord domain, assocSet cache domain (defaultRecord domain),
              true, true, 1⟩, by unfold lookup_tosdr; rw [hfind]; simp [hbm]⟩
          · intro _ _
            unfold lookup_tosdr
            rw [hfind]
            simp [hbm]
        · obtain ⟨out, hout⟩ := extractService_total domain hWFs
          constructor
          · exact ⟨⟨out, assocSet cache domain out, true, true, 1⟩,
              by unfold lookup_tosdr; rw [hfind]; simp [hbm, hout]⟩
          · intro _ hfail
            rcases hfail with h1 | ⟨b, h1⟩ | ⟨b, h1, h2⟩
            · cases h1
            · cases h1
            · injection h1 with hok' hbody
              rw [← hbody] at h2
              rw [hbm] at h2
              injection h2 with h3
              cases h3

/-- C2 witness: an uncached domain with an ok, empty-dict (falsy, hence
well-formed) body — the lookup succeeds and yields the cached default
record. -/
theorem C2_lookup_no_raise_witness :
    (∃ r, lookup_tosdr [] (("x").data) (.resp true (.dict [])) = .ok r) ∧
    lookup_tosdr [] (("x").data) (.resp true (.dict [])) =
      .ok ⟨defaultRecord (("x").data),
        assocSet [] (("x").data) (defaultRecord (("x").data)), true, true, 1⟩ :=
  have hthm := C2_lookup_no_raise_amended [] (("x").data) (.resp true (.dict []))
    (by intro ok body hh; injection hh with h1 h2; rw [← h2]; decide)
  ⟨hthm.1, hthm.2 rfl (Or.inr (Or.inr ⟨.dict [], rfl, by rfl⟩))⟩

/-- C2 counterexample: `lookup_tosdr` does raise for some external response —
a service whose `id` is the non-numeric string `"abc"` is selected as the
fallback candidate, `int("abc")` raises `ValueError`, which is not a
`requests.RequestException` and so propagates; no record is produced. -/
theorem C2_lookup_no_raise_cex :
    lookup_tosdr [] (("x").data)
      (.resp true (.dict [(kParameters,
        .dict [(kServices, .list [.dict [(kId, .str (("abc").data))]])])]))
    = .error .valueError := by rfl

theorem dedupNonempty_append (seen l₁ l₂ : List Str) :
    dedupNonempty seen (l₁ ++ l₂) =
      dedupNonempty seen l₁ ++ dedupNonempty (seenAfter seen l₁) l₂ := by
  induction l₁ generalizing seen with
  | nil => simp [dedupNonempty, seenAfter]
  | cons d rest ih =>
    simp only [List.cons_append, dedupNonempty, seenAfter, List.append_eq]
    by_cases hd : d ≠ [] ∧ ¬ d ∈ seen
    · rw [if_pos hd, if_pos hd, if_pos hd, ih]
      simp
    · rw [if_neg hd, if_neg hd, if_neg hd, ih]

theorem seenAfter_append (seen l₁ l₂ : List Str) :
    seenAfter seen (l₁ ++ l₂) = seenAfter (seenAfter seen l₁) l₂ := by
  induction l₁ generalizing seen with
  | nil => simp [seenAfter]
  | cons d rest ih =>
    simp only [List.cons_append, seenAfter, List.append_eq]
    by_cases hd : d ≠ [] ∧ ¬ d ∈ seen
    · rw [if_pos hd, if_pos hd, ih]
    · rw [if_neg hd, if_neg hd, ih]

theorem uriOfEntry_of_pure {u r : PyVal} (h : rawOfEntryPure u = some r) :
    uriOfEntry u = .ok r := by
  unfold rawOfEntryPure at h
  unfold uriOfEntry
  by_cases ht : truthy u = true
  · rw [if_neg (by simp [ht])] at h
    rw [if_pos ht]
    cases u with
    | dict d =>
      injection h with h'
      rw [← h']
      rfl
    | none => cases h
    | bool b => cases h
    | int n => cases h
    | str t => cases h
    | list xs => cases h
  · rw [if_pos (by simpa using ht)] at h
    rw [if_neg ht]
    injection h with h'
    rw [← h']
    rfl

theorem procUris_eq {us rs : List PyVal} {seen acc : List Str}
    (hmap : rawsOf us = some rs)
    (hok : ∀ r ∈ rs, ∃ d, normalize_domain_py r = .ok d) :
    procUris us seen acc =
      .ok (seenAfter seen (normsOfRaws rs), acc ++ dedupNonempty seen (normsOfRaws rs)) := by
  induction us generalizing rs seen acc with
  | nil =>
    injection hmap with h'
    rw [← h']
    simp [procUris, normsOfRaws, dedupNonempty, seenAfter]
  | cons u rest ih =>
    unfold rawsOf at hmap
    cases hr₀ : rawOfEntryPure u with
    | none => rw [hr₀] at hmap; cases hmap
    | some r₀ =>
      rw [hr₀] at hmap
      cases hrs' : rawsOf rest with
      | none => rw [hrs'] at hmap; cases hmap
      | some rs' =>
        rw [hrs'] at hmap
        injection hmap with h'
        rw [← h'] at hok ⊢
        obtain ⟨d, hd⟩ := hok r₀ (by simp)
        have hnorm : normsOfRaws (r₀ :: rs') = d :: normsOfRaws rs' := by
          simp [normsOfRaws, okNorm, hd]
        unfold procUris
        simp only [uriOfEntry_of_pure hr₀, hd, hnorm]
        have hok' : ∀ r ∈ rs', ∃ d', normalize_domain_py r = .ok d' :=
          fun r hr => hok r (List.mem_cons_of_mem _ hr)
        by_cases hcond : d ≠ [] ∧ ¬ d ∈ seen
        · rw [if_pos hcond]
          rw [ih hrs' hok']
          simp only [dedupNonempty, seenAfter, if_pos hcond]
          simp
        · rw [if_neg hcond]
          rw [ih hrs' hok']
          simp only [dedupNonempty, seenAfter, if_neg hcond]

theorem itemRaws_some {it : PyVal} {rs : List PyVal} (h : itemRaws it = some rs) :
    ∃ d ld us, it = .dict d ∧
      (if truthy ((assocFind d kLogin).getD (.dict []))
        then (assocFind d kLogin).getD (.dict []) else .dict []) = .dict ld ∧
      (if truthy ((assocFind ld kUris).getD .none)
        then (assocFind ld kUris).getD .none else .list []) = .list us ∧
      rawsOf us = some rs := by
  unfold itemRaws at h
  cases it with
  | dict d =>
    simp only at h
    split at h
    · rename_i ld hld
      split at h
      · rename_i us hus
        exact ⟨d, ld, us, rfl, hld, hus, h⟩
      all_goals cases h
    all_goals cases h
  | none => cases h
  | bool b => cases h
  | int n => cases h
  | str t => cases h
  | list xs => cases h

theorem procItems_eq {items : List PyVal} {rss : List (List PyVal)}
    {seen acc : List Str}
    (hmap : itemsRaws items = some rss)
    (hok : ∀ r ∈ rss.flatten, ∃ d, normalize_domain_py r = .ok d) :
    procItems items seen acc =
      .ok (seenAfter seen (normsOfRaws rss.flatten),
        acc ++ dedupNonempty seen (normsOfRaws rss.flatten)) := by
  induction items generalizing rss seen acc with
  | nil =>
    injection hmap with h'
    rw [← h']
    simp [procItems, normsOfRaws, dedupNonempty, seenAfter]
  | cons it rest ih =>
    unfold itemsRaws at hmap
    cases hrs₀ : itemRaws it with
    | none => rw [hrs₀] at hmap; cases hmap
    | some rs₀ =>
      rw [hrs₀] at hmap
      cases hrss' : itemsRaws rest with
      | none => rw [hrss'] at hmap; cases hmap
      | some rss' =>
        rw [hrss'] at hmap
        injection hmap with h'
        rw [← h'] at hok ⊢
        obtain ⟨d, ld, us, hit, hld, hus, hraws⟩ := itemRaws_some hrs₀
        subst hit
        have hok₀ : ∀ r ∈ rs₀, ∃ d', normalize_domain_py r = .ok d' := by
          intro r hr
          exact hok r (by simp [List.flatten]; exact Or.inl hr)
        have hok' : ∀ r ∈ rss'.flatten, ∃ d', normalize_domain_py r = .ok d' := by
          intro r hr
          exact hok r (by simp [List.flatten] at hr ⊢; exact Or.inr hr)
        unfold procItems
        simp only [pyGetE, hld, hus, pyIterE]
        simp only [procUris_eq hraws hok₀]
        rw [ih hrss' hok']
        have hflat : (rs₀ :: rss').flatten = rs₀ ++ rss'.flatten := by simp
        rw [hflat]
        have hn : normsOfRaws (rs₀ ++ rss'.flatten) =
            normsOfRaws rs₀ ++ normsOfRaws rss'.flatten := by
          simp [normsOfRaws]
        rw [hn, seenAfter_append, dedupNonempty_append, List.append_assoc]

theorem extract_ok_eq {v : PyVal} {rss : List (List PyVal)}
    (h : vaultRaws v = some rss)
    (hok : ∀ r ∈ rss.flatten, ∃ d, normalize_domain_py r = .ok d) :
    extract_domains (.ok v) = .ok (dedupNonempty [] (normsOfRaws rss.flatten)) := by
  unfold vaultRaws at h
  cases v with
  | dict d =>
    simp only at h
    split at h
    · rename_i items hitems
      unfold extract_domains
      simp only [pyGetE, hitems, pyIterE]
      simp only [procItems_eq h hok]
      simp
    · cases h
  | none => cases h
  | bool b => cases h
  | int n => cases h
  | str t => cases h
  | list xs => cases h

/-- C3 (amended): `extract_domains` deduplicates by the *normalized* domain
(not the raw URI value): for every well-shaped vault whose raw URI values all
normalize without an exception, the output is the normalization of each raw
value in first-seen order, with empty normalizations dropped and duplicates
decided by the normalized domain. -/
theorem C3_dedup_by_normalized_amended (v : PyVal) (rss : List (List PyVal))
    (h : vaultRaws v = some rss)
    (hok : ∀ r ∈ rss.flatten, ∃ d, normalize_domain_py r = .ok d) :
    extract_domains (.ok v) = .ok (dedupNonempty [] (normsOfRaws rss.flatten)) :=
  extract_ok_eq h hok

/-- C3 witness: a two-item vault with `https://example.com` and
`https://test.org`. -/
theorem C3_dedup_by_normalized_witness :
    extract_domains (.ok (.dict [(kItems, .list
      [.dict [(kLogin, .dict [(kUris, .list [.dict [(kUri, .str (("https://example.com").data))]])])],
       .dict [(kLogin, .dict [(kUris, .list [.dict [(kUri, .str (("https://test.org").data))]])])]])])) =
    .ok (dedupNonempty [] (normsOfRaws
      [[PyVal.str (("https://example.com").data)],
       [PyVal.str (("https://test.org").data)]].flatten)) :=
  C3_dedup_by_normalized_amended _ _ (by rfl)
    (by
      intro r hr
      simp only [List.flatten, List.append_nil, List.singleton_append,
        List.mem_cons, List.mem_singleton, List.not_mem_nil, or_false] at hr
      rcases hr with rfl | rfl
      · exact ⟨_, by rfl⟩
      · exact ⟨_, by rfl⟩)

/-- C3 counterexample: two distinct raw URI strings that normalize to the
same domain.  The claim's raw-value seen-set would emit the domain twice;
the code's normalized-domain seen-set emits it once. -/
theorem C3_dedup_by_normalized_cex :
    vaultRaws (.dict [(kItems, .list
      [.dict [(kLogin, .dict [(kUris, .list
        [.dict [(kUri, .str (("https://example.com").data))],
         .dict [(kUri, .str (("http://example.com").data))]])])]])]) =
      some [[PyVal.str (("https://example.com").data),
             PyVal.str (("http://example.com").data)]] ∧
    (("https://example.com").data : Str) ≠ (("http://example.com").data) ∧
    normalize_domain (("https://example.com").data) = .ok (("example.com").data) ∧
    normalize_domain (("http://example.com").data) = .ok (("example.com").data) ∧
    dedupByRaw [] [(("https://example.com").data), (("http://example.com").data)] =
      [(("https://example.com").data), (("http://example.com").data)] ∧
    extract_domains (.ok (.dict [(kItems, .list
      [.dict [(kLogin, .dict [(kUris, .list
        [.dict [(kUri, .str (("https://example.com").data))],
         .dict [(kUri, .str (("http://example.com").data))]])])]])])) =
      .ok [("example.com").data] ∧
    ([("example.com").data] : List Str) ≠
      [("example.com").data, ("example.com").data] :=
  ⟨by rfl, by decide, by decide, by decide, by rfl, by rfl, by decide⟩

/-- C6 (amended): a malformed or missing export file is a fatal parse error,
and for well-shaped vaults whose raw URI values all normalize without an
exception `extract_domains` returns normally (entries whose URI normalizes
to the empty string are skipped silently, yielding no record).  It is not
exception-free on every item shape: a URI with an unbalanced bracket (or an
ill-typed entry) raises — see the counterexample. -/
theorem C6_skip_malformed_amended :
    (∀ (v : PyVal) (rss : List (List PyVal)), vaultRaws v = some rss →
      (∀ r ∈ rss.flatten, ∃ d, normalize_domain_py r = .ok d) →
      ∃ ds, extract_domains (.ok v) = .ok ds) ∧
    (∀ e : Unit, extract_domains (.error e) = .error .parseError) := by
  constructor
  · intro v rss h hok
    exact ⟨_, extract_ok_eq h hok⟩
  · intro e
    rfl

/-- C6 witness: a vault whose single entry is an email-like URI normalizing
to the empty string: the run completes with some output list. -/
theorem C6_skip_malformed_witness :
    ∃ ds, extract_domains (.ok (.dict [(kItems, .list
      [.dict [(kLogin, .dict [(kUris, .list
        [.dict [(kUri, .str (("user@example.com").data))]])])]])])) = .ok ds :=
  C6_skip_malformed_amended.1 _
    [[PyVal.str (("user@example.com").data)]] (by rfl)
    (by
      intro r hr
      simp only [List.flatten, List.append_nil, List.mem_singleton] at hr
      subst hr
      exact ⟨_, by rfl⟩)

/-- C6 counterexample: an entry whose URI is `"["` makes `urlparse` raise
`ValueError("Invalid IPv6 URL")`, which `extract_domains` does not catch —
the malformed entry is not skipped silently. -/
theorem C6_skip_malformed_cex :
    extract_domains (.ok (.dict [(kItems, .list
      [.dict [(kLogin, .dict [(kUris, .list
        [.dict [(kUri, .str (("[").data))]])])]])])) = .error .valueError := by
  rfl

theorem mainStep2_eq (ds : List Str) (acc seen : List Str)
    (hinv : ∀ s, s ∈ seen ↔ s ∈ acc) :
    mainStep2Loop acc ds = acc ++ dedupNonempty seen (ds.map dn_normalize) := by
  induction ds generalizing acc seen with
  | nil => simp [mainStep2Loop, dedupNonempty]
  | cons d rest ih =>
    simp only [mainStep2Loop, List.map_cons, dedupNonempty]
    by_cases hcond : dn_normalize d ≠ [] ∧ ¬ dn_normalize d ∈ acc
    · rw [if_pos hcond, if_pos ⟨hcond.1, fun hmem => hcond.2 ((hinv _).mp hmem)⟩]
      rw [ih (acc ++ [dn_normalize d]) (dn_normalize d :: seen) ?_]
      · simp
      · intro s
        simp [hinv s, or_comm]
    · have hcond' : ¬ (dn_normalize d ≠ [] ∧ ¬ dn_normalize d ∈ seen) := by
        intro ⟨h1, h2⟩
        exact hcond ⟨h1, fun hmem => h2 ((hinv _).mpr hmem)⟩
      rw [if_neg hcond, if_neg hcond']
      exact ih acc seen hinv

/-- C8 (amended): the two normalizers are applied in sequence — step 2 of
`main` maps `domain_normalizer.normalize` over the output of
`extract_domains` (which already normalized with `parser.normalize_domain`),
keeping nonempty first-seen-unique results — but they do not compute the
same function (see the counterexample `"www.com"`). -/
theorem C8_pipeline_amended (j : Except Unit PyVal) (ds : List Str)
    (_h : extract_domains j = .ok ds) :
    main_normalized ds = dedupNonempty [] (ds.map dn_normalize) :=
  mainStep2_eq ds [] [] (fun s => by simp)

/-- C8 witness: the pipeline composition on the two-item vault of the spec's
end-to-end example. -/
theorem C8_pipeline_witness :
    main_normalized [("example.com").data, ("test.org").data] =
      dedupNonempty []
        ([("example.com").data, ("test.org").data].map dn_normalize) :=
  C8_pipeline_amended
    (.ok (.dict [(kItems, .list
      [.dict [(kLogin, .dict [(kUris, .list [.dict [(kUri, .str (("https://example.com").data))]])])],
       .dict [(kLogin, .dict [(kUris, .list [.dict [(kUri, .str (("https://test.org").data))]])])]])]))
    [("example.com").data, ("test.org").data] (by rfl)

/-- C8 counterexample: the two normalization functions disagree on
`"www.com"` — the parser's table version strips the `www.` prefix and
returns `"com"`, while the tldextract-based version keeps the registrable
domain `"www.com"`. -/
theorem C8_pipeline_cex :
    normalize_domain (("www.com").data) = .ok (("com").data) ∧
    dn_normalize (("www.com").data) = ("www.com").data ∧
    ((("com").data : Str)) ≠ (("www.com").data) :=
  ⟨by decide, by decide, by decide⟩

/-- C10: `generate_markdown_report` raises `ZeroDivisionError` on an empty
result list — the executive-summary percentage divides by `total_services`
unguarded — and is total on every non-empty result list (the
grade-distribution percentage is guarded by `if total_services > 0`). -/
theorem C10_markdown_divzero :
    generate_markdown_report [] = .error .zeroDivisionError ∧
    (∀ rows : List ResultRow, rows ≠ [] →
      ∃ s, generate_markdown_report rows = .ok s) := by
  constructor
  · rfl
  · intro rows hne
    have htot : (rows.length : ℚ) ≠ 0 := by
      have : rows.length ≠ 0 := by
        intro h0
        exact hne (List.length_eq_zero.mp h0)
      exact_mod_cast this
    unfold generate_markdown_report
    simp only [pyDiv, if_neg htot]
    exact ⟨_, rfl⟩

/-- C10 witness: the report statistics succeed on a one-row result list. -/
theorem C10_markdown_divzero_witness :
    ∃ s, generate_markdown_report
      [⟨("GitHub").data, ("github.com").data, Grade.B, some 297⟩] = .ok s :=
  C10_markdown_divzero.2
    [⟨("GitHub").data, ("github.com").data, Grade.B, some 297⟩] (by simp)
